import Mathlib

/-!
Verification of the VillageSQL extension subsystem against its specification.

This file gives a shallow embedding, in Lean 4, of the parts of the
VillageSQL server sources that the checked claims are about:

* the generic staged map `SystemTableMap` from
  `villagesql/schema/victionary_client.h` (committed `std::map` plus the
  per-session pending-operation list, `get`, `get_committed`, `commit`,
  `get_prefix_committed`, `has_prefix_committed`);
* the DDL staging order of `Metadata_modifier::mark_victionary_modifications`
  from `villagesql/sql/metadata_modifier.cc`;
* the uninstall dependency checks of `remove_extension_from_victionary` and
  `check_for_columns_of_extension` from `villagesql/veb/sql_extension.cc`,
  and the event order of `Sql_cmd_uninstall_extension::execute`;
* `TypeContext` construction from
  `villagesql/schema/descriptor/type_context.h`;
* the SemVer implementation from `villagesql/common/semver.cc`.

Strings that live in `std::string` keys are modelled as byte lists
(`List Nat`), ordered the way `std::map<std::string, ...>` orders them
(lexicographic comparison of unsigned bytes).  SemVer strings are modelled
as `List Char` restricted to the ASCII behaviour of the C routines used by
the source.  `unsigned long` is modelled as `Nat` together with the explicit
`ULONG_MAX` bound checks that the source performs.
-/

namespace VSQL

/-- Byte strings: the contents of a `std::string`, one `Nat` per byte. -/
abbrev Bytes := List Nat

/-- Three-way lexicographic comparison of byte strings, the order used by
`std::map<std::string, ...>` (via `char_traits<char>::compare`, which
compares bytes as `unsigned char`, then the lengths). -/
def bytesCmp : Bytes → Bytes → Ordering
  | [], [] => .eq
  | [], _ :: _ => .lt
  | _ :: _, [] => .gt
  | a :: as, b :: bs =>
    if a < b then .lt else if b < a then .gt else bytesCmp as bs

/-- Strict order on byte strings (`operator<` of `std::string`). -/
def bytesLt (a b : Bytes) : Bool := bytesCmp a b == .lt

theorem bytesCmp_eq_iff : ∀ a b : Bytes, bytesCmp a b = .eq ↔ a = b := by
  intro a
  induction a with
  | nil => intro b; cases b <;> simp [bytesCmp]
  | cons x as ih =>
    intro b
    cases b with
    | nil => simp [bytesCmp]
    | cons y bs =>
      by_cases h1 : x < y
      · simp [bytesCmp, h1]
        omega
      · by_cases h2 : y < x
        · simp [bytesCmp, h1, h2]
          omega
        · have hxy : x = y := by omega
          simp [bytesCmp, h1, h2, hxy, ih]

theorem bytesCmp_swap : ∀ a b : Bytes, bytesCmp a b = (bytesCmp b a).swap := by
  intro a
  induction a with
  | nil => intro b; cases b <;> simp [bytesCmp, Ordering.swap]
  | cons x as ih =>
    intro b
    cases b with
    | nil => simp [bytesCmp, Ordering.swap]
    | cons y bs =>
      by_cases h1 : x < y
      · have h2 : ¬ y < x := by omega
        simp [bytesCmp, h1, h2, Ordering.swap]
      · by_cases h2 : y < x
        · simp [bytesCmp, h1, h2, Ordering.swap]
        · simp [bytesCmp, h1, h2, ih]

theorem bytesLt_iff_cmp {a b : Bytes} :
    bytesLt a b = true ↔ bytesCmp a b = .lt := by
  unfold bytesLt
  cases h : bytesCmp a b <;> decide

theorem bytesLt_asymm {a b : Bytes} (h : bytesLt a b = true) :
    bytesLt b a = false := by
  rw [bytesLt_iff_cmp, bytesCmp_swap] at h
  cases hba : bytesCmp b a with
  | lt => rw [hba] at h; exact absurd h (by decide)
  | eq => rw [hba] at h; exact absurd h (by decide)
  | gt => show (bytesCmp b a == .lt) = false; rw [hba]; rfl

theorem bytesLt_irrefl (a : Bytes) : bytesLt a a = false := by
  have h := (bytesCmp_eq_iff a a).mpr rfl
  show (bytesCmp a a == .lt) = false
  rw [h]; rfl

theorem bytesLt_of_cmp_gt {a b : Bytes} (h : bytesCmp a b = .gt) :
    bytesLt b a = true := by
  rw [bytesLt_iff_cmp, bytesCmp_swap, h]
  rfl

/-- Trichotomy for the byte-string order. -/
theorem bytesLt_trichotomy (a b : Bytes) :
    bytesLt a b = true ∨ a = b ∨ bytesLt b a = true := by
  cases h : bytesCmp a b with
  | lt => exact Or.inl (bytesLt_iff_cmp.mpr h)
  | eq => exact Or.inr (Or.inl ((bytesCmp_eq_iff a b).mp h))
  | gt => exact Or.inr (Or.inr (bytesLt_of_cmp_gt h))

theorem bytesCmp_trans :
    ∀ {a b c : Bytes}, bytesCmp a b = .lt → bytesCmp b c = .lt →
      bytesCmp a c = .lt := by
  intro a
  induction a with
  | nil =>
    intro b c hab hbc
    cases c with
    | nil =>
      cases b with
      | nil => exact absurd hab (by simp [bytesCmp])
      | cons y bs => exact absurd hbc (by simp [bytesCmp])
    | cons z cs => simp [bytesCmp]
  | cons x as ih =>
    intro b c hab hbc
    cases b with
    | nil => simp [bytesCmp] at hab
    | cons y bs =>
      cases c with
      | nil => simp [bytesCmp] at hbc
      | cons z cs =>
        by_cases hxy : x < y
        · by_cases hyz : y < z
          · have hxz : x < z := by omega
            simp [bytesCmp, hxz]
          · by_cases hzy : z < y
            · simp [bytesCmp, hyz, hzy] at hbc
            · have hyz' : y = z := by omega
              have hxz : x < z := by omega
              simp [bytesCmp, hxz]
        · by_cases hyx : y < x
          · simp [bytesCmp, hxy, hyx] at hab
          · have hxy' : x = y := by omega
            subst hxy'
            by_cases hyz : x < z
            · simp [bytesCmp, hyz]
            · by_cases hzy : z < x
              · simp [bytesCmp, hyz, hzy] at hbc
              · have hxz : x = z := by omega
                subst hxz
                simp [bytesCmp, hxy] at hab hbc ⊢
                exact ih hab hbc

theorem bytesLt_trans {a b c : Bytes} (hab : bytesLt a b = true)
    (hbc : bytesLt b c = true) : bytesLt a c = true :=
  bytesLt_iff_cmp.mpr
    (bytesCmp_trans (bytesLt_iff_cmp.mp hab) (bytesLt_iff_cmp.mp hbc))

/-- Equality is decidable on byte strings, and `bytesLt` is a total strict
order; keys that are not below each other in either direction coincide. -/
theorem bytesLt_antisymm {a b : Bytes} (h1 : bytesLt a b = false)
    (h2 : bytesLt b a = false) : a = b := by
  rcases bytesLt_trichotomy a b with h | h | h
  · rw [h] at h1; cases h1
  · exact h
  · rw [h] at h2; cases h2

end VSQL

namespace VSQL

/-!
## The generic staged map

Model of `SystemTableMap<EntryType, Mode>` from
`villagesql/schema/victionary_client.h`.  The committed state
(`m_committed : std::map<std::string, std::shared_ptr<EntryType>>`) is a
strictly `bytesLt`-sorted association list; a session's pending list
(`m_uncommitted[thd] : SQL_I_List<PendingOperation>`) is a plain list in
staging order (`link_in_list` appends at the tail).
-/

/-- Mirrors `enum class OperationType` in `victionary_client.h`. -/
inductive OperationType where
  | INSERT
  | UPDATE
  | DELETE
deriving DecidableEq, Repr

/-- Mirrors `PendingOperation<EntryType>`: the operation type, the entry
(`nullptr` for DELETE-by-key, modelled as `none`), and the stored key
(`key`, which is the old key for UPDATE and the key to delete for DELETE;
empty for INSERT). -/
structure PendingOperation (E : Type) where
  op_type : OperationType
  entry : Option E
  key : Bytes
deriving DecidableEq, Repr

/-- A committed map: association list from normalized key string to entry. -/
abbrev CommittedMap (E : Type) := List (Bytes × E)

/-- Keys strictly ascend in `bytesLt` order: the `std::map` invariant. -/
def MapSorted {E : Type} (m : CommittedMap E) : Prop :=
  List.Chain' (fun a b => bytesLt a.1 b.1 = true) m

instance {E : Type} (m : CommittedMap E) : Decidable (MapSorted m) :=
  inferInstanceAs
    (Decidable (List.Chain' (fun (a b : Bytes × E) => bytesLt a.1 b.1 = true) m))

/-- Lookup in the committed map (`m_committed.find(key_str)`). -/
def mapFind {E : Type} (m : CommittedMap E) (k : Bytes) : Option E :=
  match m with
  | [] => none
  | (k', e) :: rest => if k' = k then some e else mapFind rest k

/-- Insert-or-assign at a key (`m_committed[key] = entry`), keeping the
sorted-map representation. -/
def mapInsert {E : Type} (m : CommittedMap E) (k : Bytes) (e : E) :
    CommittedMap E :=
  match m with
  | [] => [(k, e)]
  | (k', e') :: rest =>
    if bytesLt k k' then (k, e) :: (k', e') :: rest
    else if k' = k then (k, e) :: rest
    else (k', e') :: mapInsert rest k e

/-- Erase a key (`m_committed.erase(key)`); at most one entry carries the
key, by the sorted-map invariant. -/
def mapErase {E : Type} (m : CommittedMap E) (k : Bytes) : CommittedMap E :=
  m.filter (fun kv => kv.1 ≠ k)

theorem mapFind_insert {E : Type} (m : CommittedMap E) (k : Bytes) (e : E)
    (k' : Bytes) :
    mapFind (mapInsert m k e) k' = if k' = k then some e else mapFind m k' := by
  induction m with
  | nil =>
    simp only [mapInsert, mapFind]
    by_cases h : k = k'
    · subst h; simp
    · rw [if_neg h, if_neg (show ¬ k' = k from fun hh => h hh.symm)]
  | cons kv rest ih =>
    obtain ⟨k1, e1⟩ := kv
    simp only [mapInsert]
    by_cases hlt : bytesLt k k1
    · rw [if_pos hlt]
      simp only [mapFind]
      by_cases h : k = k'
      · subst h; simp
      · rw [if_neg h, if_neg (show ¬ k' = k from fun hh => h hh.symm)]
    · rw [if_neg hlt]
      by_cases heq : k1 = k
      · rw [if_pos heq]
        subst heq
        simp only [mapFind]
        by_cases h : k1 = k'
        · subst h; simp
        · rw [if_neg h, if_neg (show ¬ k' = k1 from fun hh => h hh.symm),
            if_neg h]
      · rw [if_neg heq]
        simp only [mapFind]
        by_cases h1 : k1 = k'
        · rw [if_pos h1, if_pos h1,
            if_neg (show ¬ k' = k from fun hh => heq (h1.trans hh))]
        · rw [if_neg h1, if_neg h1, ih]

theorem mapFind_erase {E : Type} (m : CommittedMap E) (k k' : Bytes) :
    mapFind (mapErase m k) k' = if k' = k then none else mapFind m k' := by
  induction m with
  | nil => simp [mapErase, mapFind]
  | cons kv rest ih =>
    obtain ⟨k1, e1⟩ := kv
    by_cases hk1 : k1 = k
    · have hdrop : mapErase ((k1, e1) :: rest) k = mapErase rest k := by
        simp [mapErase, hk1]
      rw [hdrop, ih]
      subst hk1
      by_cases h : k' = k1
      · simp [h]
      · rw [if_neg h, if_neg h]
        simp only [mapFind]
        rw [if_neg (fun hh : k1 = k' => h hh.symm)]
    · have hkeep : mapErase ((k1, e1) :: rest) k = (k1, e1) :: mapErase rest k := by
        simp [mapErase, hk1]
      rw [hkeep]
      simp only [mapFind]
      by_cases h1 : k1 = k'
      · rw [if_pos h1, if_neg (fun hh : k' = k => hk1 (h1.trans hh)), if_pos h1]
      · rw [if_neg h1, ih]
        by_cases h : k' = k
        · simp [h]
        · simp [h, h1]

/-!
### Read path: `SystemTableMap::get` and `get_committed`

`get` (victionary_client.h, lines 144-178) walks the session's pending list
in staging order, remembering the most recent operation whose key (the
entry's key if the operation carries an entry, else the stored key) matches,
or, for UPDATE, whose stored old key matches; a final DELETE yields
`nullptr`, any other final operation yields its entry, and with no match the
committed map decides.
-/

/-- The matching condition tested inside the loop of `SystemTableMap::get`:
`op_key == key_str || (op->op_type == UPDATE && op->key.str() == key_str)`
where `op_key` is the entry's key when the operation holds an entry and the
stored key otherwise. -/
def opMatchesGet {E : Type} (ekey : E → Bytes) (op : PendingOperation E)
    (key_str : Bytes) : Bool :=
  let op_key := match op.entry with
    | some e => ekey e
    | none => op.key
  op_key == key_str || (op.op_type == .UPDATE && op.key == key_str)

/-- Model of `SystemTableMap::get_committed`: plain lookup in the committed
map (the hit/miss statistics counters are not modelled). -/
def SystemTableMap.get_committed {E : Type} (m : CommittedMap E)
    (key_str : Bytes) : Option E :=
  mapFind m key_str

/-- Model of `SystemTableMap::get(THD*, const std::string&)`: the loop keeps
the most recent matching pending operation, then dispatches on it, falling
back to `get_committed`. -/
def SystemTableMap.get {E : Type} (ekey : E → Bytes)
    (pending : List (PendingOperation E)) (m : CommittedMap E)
    (key_str : Bytes) : Option E :=
  let most_recent_op := pending.foldl
    (fun acc op => if opMatchesGet ekey op key_str then some op else acc)
    none
  match most_recent_op with
  | some op => if op.op_type == .DELETE then none else op.entry
  | none => SystemTableMap.get_committed m key_str

/-!
### Write path: `MarkFor...` and `commit`
-/

/-- Mark-for-insertion (`MarkForInsertion`): an INSERT pending operation with
the entry and an empty stored key. -/
def markInsertOp {E : Type} (e : E) : PendingOperation E :=
  ⟨.INSERT, some e, []⟩

/-- Mark-for-update (`MarkForUpdate`): an UPDATE pending operation carrying
the new entry and the old key. -/
def markUpdateOp {E : Type} (e : E) (old_key : Bytes) : PendingOperation E :=
  ⟨.UPDATE, some e, old_key⟩

/-- Mark-for-deletion (`MarkForDeletion`): a DELETE pending operation with no
entry and the key to delete. -/
def markDeleteOp {E : Type} (key : Bytes) : PendingOperation E :=
  ⟨.DELETE, none, key⟩

/-- One step of `SystemTableMap::commit` (victionary_client.h, lines
414-456): INSERT and UPDATE assign `m_committed[entry->key()] = entry`, an
UPDATE whose non-empty old key differs from the new key also erases the old
key, and DELETE erases the stored key. -/
def commitStep {E : Type} (ekey : E → Bytes) (m : CommittedMap E)
    (op : PendingOperation E) : CommittedMap E :=
  match op.op_type with
  | .DELETE => mapErase m op.key
  | _ =>
    match op.entry with
    | none => m
    | some e =>
      let key := ekey e
      let m1 := mapInsert m key e
      if op.op_type = .UPDATE ∧ op.key ≠ [] ∧ op.key ≠ key then
        mapErase m1 op.key
      else m1

/-- Model of `SystemTableMap::commit(THD*)`: apply the session's pending
operations to the committed map in staging order. -/
def SystemTableMap.commit {E : Type} (ekey : E → Bytes) (m : CommittedMap E)
    (pending : List (PendingOperation E)) : CommittedMap E :=
  pending.foldl (commitStep ekey) m

/-!
### Prefix queries

`get_prefix_committed` and `has_prefix_committed` (victionary_client.h,
lines 513-563) range-scan the committed map from
`lower_bound(prefix_str)` while the key stays below `upper`, where `upper`
is the prefix string with its final byte incremented
(`upper.back() = upper.back() + 1`, which wraps modulo 256 on the target's
8-bit `char`).
-/

/-- Upper bound of the range scan: the prefix with its last byte
incremented, the increment wrapping modulo 256. -/
def upperBound (p : Bytes) : Bytes :=
  p.dropLast ++ [((p.getLast?).getD 0 + 1) % 256]

/-- Model of `SystemTableMap::get_prefix_committed`: empty prefixes return
nothing; otherwise iterate from the first key not below the prefix while
the key is below `upperBound`. -/
def SystemTableMap.get_prefix_committed {E : Type} (m : CommittedMap E)
    (prefix_str : Bytes) : List E :=
  if prefix_str = [] then []
  else
    let upper := upperBound prefix_str
    (((m.dropWhile (fun kv => bytesLt kv.1 prefix_str)).takeWhile
        (fun kv => bytesLt kv.1 upper)).map Prod.snd)

/-- Model of `SystemTableMap::has_prefix_committed`: empty prefixes answer
`false`; otherwise the first key not below the prefix must exist and be
below `upperBound`. -/
def SystemTableMap.has_prefix_committed {E : Type} (m : CommittedMap E)
    (prefix_str : Bytes) : Bool :=
  if prefix_str = [] then false
  else
    let upper := upperBound prefix_str
    match (m.dropWhile (fun kv => bytesLt kv.1 prefix_str)).head? with
    | some kv => bytesLt kv.1 upper
    | none => false

/-- Model of `SystemTableMap::get_all_committed`: all entries in map
iteration (key) order. -/
def SystemTableMap.get_all_committed {E : Type} (m : CommittedMap E) :
    List E :=
  m.map Prod.snd

/-!
### Claim-side (specification) readings of `get` and `commit`
-/

/-- Specification reading of which pending operations touch a key: the new
key (the entry's key) matches, or, for UPDATE and DELETE, the stored old key
matches. -/
def claimTouches {E : Type} (ekey : E → Bytes) (op : PendingOperation E)
    (k : Bytes) : Bool :=
  (match op.entry with
    | some e => ekey e == k
    | none => false)
  || ((op.op_type == .UPDATE || op.op_type == .DELETE) && op.key == k)

/-- Specification reading of the session-local view: the last pending
operation of the session's list that touches the key, if any. -/
def lastPendingOpFor {E : Type} (ekey : E → Bytes)
    (pending : List (PendingOperation E)) (k : Bytes) :
    Option (PendingOperation E) :=
  pending.reverse.find? (fun op => claimTouches ekey op k)

/-- Shape invariant maintained by `MarkForInsertion` / `MarkForUpdate` /
`MarkForDeletion`: exactly the DELETE operations carry no entry. -/
def OpWF {E : Type} (op : PendingOperation E) : Prop :=
  op.entry = none ↔ op.op_type = .DELETE

instance {E : Type} [DecidableEq E] (op : PendingOperation E) :
    Decidable (OpWF op) :=
  inferInstanceAs (Decidable (op.entry = none ↔ op.op_type = .DELETE))

/-- Specification reading of one committed-map update, as the claim words
it: Insert and Update assign `committed[new_key]` to the entry, an Update
whose old key is non-empty and differs from the new key additionally erases
the old key, and Delete erases the stored old key. -/
def applyOpSpec {E : Type} (ekey : E → Bytes) (f : Bytes → Option E)
    (op : PendingOperation E) : Bytes → Option E :=
  fun k =>
    match op.op_type, op.entry with
    | .DELETE, _ => if k = op.key then none else f k
    | t, some e =>
      let new_key := ekey e
      if k = new_key then some e
      else if t = .UPDATE ∧ op.key ≠ [] ∧ op.key ≠ new_key ∧ k = op.key then
        none
      else f k
    | _, none => f k

/-- Specification reading of a whole commit: fold the pending list, in
staging order, over the pre-commit committed state. -/
def applyPendingSpec {E : Type} (ekey : E → Bytes) (f : Bytes → Option E)
    (pending : List (PendingOperation E)) : Bytes → Option E :=
  pending.foldl (applyOpSpec ekey) f

theorem foldl_lastMatch {α : Type} (p : α → Bool) (l : List α)
    (acc : Option α) :
    l.foldl (fun a op => if p op then some op else a) acc
      = match l.reverse.find? p with
        | some x => some x
        | none => acc := by
  induction l generalizing acc with
  | nil => simp
  | cons a t ih =>
    simp only [List.foldl_cons, List.reverse_cons]
    rw [ih]
    rcases h : t.reverse.find? p with _ | x
    · cases hpa : p a <;> simp [List.find?_append, h, hpa, List.find?]
    · simp [List.find?_append, h]

theorem find?_congr_mem {α : Type} {p q : α → Bool} :
    ∀ l : List α, (∀ x ∈ l, p x = q x) → l.find? p = l.find? q := by
  intro l
  induction l with
  | nil => intro _; rfl
  | cons a t ih =>
    intro h
    have ha := h a (by simp)
    have ht : ∀ x ∈ t, p x = q x := fun x hx => h x (by simp [hx])
    cases hq : q a
    · rw [List.find?_cons, List.find?_cons, ha, hq, ih ht]
    · rw [List.find?_cons, List.find?_cons, ha, hq]

theorem opMatchesGet_eq_claimTouches {E : Type} (ekey : E → Bytes)
    (op : PendingOperation E) (k : Bytes) (hwf : OpWF op) :
    opMatchesGet ekey op k = claimTouches ekey op k := by
  rcases op with ⟨t, entry, key⟩
  rcases entry with _ | e
  · have ht : t = .DELETE := hwf.mp rfl
    subst ht
    cases hkk : (key == k) <;> simp [opMatchesGet, claimTouches, hkk]
  · cases t with
    | INSERT =>
      cases hek : (ekey e == k) <;> cases hkk : (key == k) <;>
        simp [opMatchesGet, claimTouches, hek, hkk]
    | UPDATE =>
      cases hek : (ekey e == k) <;> cases hkk : (key == k) <;>
        simp [opMatchesGet, claimTouches, hek, hkk]
    | DELETE => exact absurd (hwf.mpr rfl) (by simp)

/-- The committed-map step lemma: one `commit` step changes lookups exactly
as the specification's one-operation update describes. -/
theorem commitStep_spec {E : Type} (ekey : E → Bytes) (m : CommittedMap E)
    (op : PendingOperation E) (k : Bytes) :
    mapFind (commitStep ekey m op) k
      = applyOpSpec ekey (fun k' => mapFind m k') op k := by
  rcases op with ⟨t, entry, key⟩
  cases t with
  | DELETE =>
    simp only [commitStep, applyOpSpec]
    exact mapFind_erase m key k
  | INSERT =>
    rcases entry with _ | e
    · simp [commitStep, applyOpSpec]
    · simp only [commitStep, applyOpSpec]
      have hcond : ¬ (OperationType.INSERT = OperationType.UPDATE ∧
          key ≠ [] ∧ key ≠ ekey e) := by
        intro hc
        exact absurd hc.1 (by decide)
      rw [if_neg hcond, mapFind_insert]
      have hcond2 : ¬ (OperationType.INSERT = OperationType.UPDATE ∧
          key ≠ [] ∧ key ≠ ekey e ∧ k = key) := by
        intro hc
        exact absurd hc.1 (by decide)
      rw [if_neg hcond2]
  | UPDATE =>
    rcases entry with _ | e
    · simp [commitStep, applyOpSpec]
    · simp only [commitStep, applyOpSpec]
      by_cases hcond : key ≠ [] ∧ key ≠ ekey e
      · rw [if_pos (show True ∧ key ≠ [] ∧ key ≠ ekey e from
          ⟨trivial, hcond.1, hcond.2⟩), mapFind_erase, mapFind_insert]
        by_cases hk : k = ekey e
        · have hkk : ¬ k = key := by
            intro h
            exact hcond.2 (h ▸ hk)
          rw [if_neg hkk, if_pos hk, if_pos hk]
        · rw [if_neg hk, if_neg hk]
          by_cases hkey : k = key
          · rw [if_pos hkey,
              if_pos (show True ∧ key ≠ [] ∧ key ≠ ekey e ∧ k = key from
                ⟨trivial, hcond.1, hcond.2, hkey⟩)]
          · rw [if_neg hkey,
              if_neg (show ¬ (True ∧ key ≠ [] ∧ key ≠ ekey e ∧ k = key) from
                fun hc => hkey hc.2.2.2)]
      · rw [if_neg (show ¬ (True ∧ key ≠ [] ∧ key ≠ ekey e) from
          fun hc => hcond ⟨hc.2.1, hc.2.2⟩), mapFind_insert]
        by_cases hk : k = ekey e
        · rw [if_pos hk, if_pos hk]
        · rw [if_neg hk, if_neg hk,
            if_neg (show ¬ (True ∧ key ≠ [] ∧ key ≠ ekey e ∧ k = key) from
              fun hc => hcond ⟨hc.2.1, hc.2.2.1⟩)]

theorem applyPendingSpec_congr {E : Type} (ekey : E → Bytes)
    {f g : Bytes → Option E} (pending : List (PendingOperation E))
    (hfg : ∀ k, f k = g k) :
    ∀ k, applyPendingSpec ekey f pending k = applyPendingSpec ekey g pending k := by
  induction pending generalizing f g with
  | nil => exact hfg
  | cons op rest ih =>
    intro k
    simp only [applyPendingSpec, List.foldl_cons]
    refine ih (fun k' => ?_) k
    rcases op with ⟨t, entry, key⟩
    cases t <;> rcases entry with _ | e <;> simp only [applyOpSpec] <;>
      first
        | exact hfg _
        | (split_ifs <;> first | rfl | exact hfg _)

/-- C1: for every session and key, `get` returns the value determined by the
last pending operation of the session whose new key (entry key) or, for
Update/Delete, stored old key equals the queried key — `none` if that last
operation is a Delete, its entry otherwise — and falls back to
`get_committed` when no pending operation touches the key.  This holds for
arbitrary pending-operation chains, rename chains included. -/
theorem get_reflects_last_pending_op {E : Type} (ekey : E → Bytes)
    (pending : List (PendingOperation E)) (m : CommittedMap E) (k : Bytes)
    (hwf : ∀ op ∈ pending, OpWF op) :
    SystemTableMap.get ekey pending m k
      = match lastPendingOpFor ekey pending k with
        | some op => if op.op_type = .DELETE then none else op.entry
        | none => SystemTableMap.get_committed m k := by
  simp only [SystemTableMap.get, lastPendingOpFor]
  rw [foldl_lastMatch]
  rw [find?_congr_mem pending.reverse
    (fun op hop =>
      opMatchesGet_eq_claimTouches ekey op k
        (hwf op (List.mem_reverse.mp hop)))]
  rcases h : pending.reverse.find? (fun op => claimTouches ekey op k)
      with _ | op
  · rfl
  · by_cases hd : op.op_type = .DELETE <;> simp [hd]

/-- Witness for C1: a rename chain Insert then renaming Update then Delete
then Insert on the same key, evaluated at a concrete input. -/
theorem get_reflects_last_pending_op_witness :
    (∀ op ∈ ([markInsertOp 1, markUpdateOp 1 [2], markDeleteOp [1],
        markInsertOp 1] : List (PendingOperation Nat)), OpWF op)
    ∧ SystemTableMap.get (fun n => [n])
        [markInsertOp 1, markUpdateOp 1 [2], markDeleteOp [1], markInsertOp 1]
        [([1], 7)] [1]
      = match lastPendingOpFor (fun n => [n])
          [markInsertOp 1, markUpdateOp 1 [2], markDeleteOp [1],
            markInsertOp 1] [1] with
        | some op => if op.op_type = .DELETE then none else op.entry
        | none => SystemTableMap.get_committed [([1], 7)] [1] :=
  ⟨by decide,
    get_reflects_last_pending_op (fun n => [n])
      [markInsertOp 1, markUpdateOp 1 [2], markDeleteOp [1], markInsertOp 1]
      [([1], 7)] [1] (by decide)⟩

/-- C2: `commit` applies the session's pending operations to the committed
map in staging order — Insert and Update assign `committed[new_key]` to the
entry, a renaming Update additionally erases the old key, Delete erases the
stored key — so that afterwards every `get_committed` lookup equals the
fold of the pending list over the pre-commit committed map; in particular a
Delete followed by an Insert on the same key yields the inserted entry, and
a renaming Update followed by a Delete of the old key leaves only the new
key present. -/
theorem commit_applies_pending_in_order {E : Type} (ekey : E → Bytes) :
    (∀ (m : CommittedMap E) (pending : List (PendingOperation E)) (k : Bytes),
      SystemTableMap.get_committed (SystemTableMap.commit ekey m pending) k
        = applyPendingSpec ekey (SystemTableMap.get_committed m) pending k)
    ∧ (∀ (m : CommittedMap E) (e : E),
      SystemTableMap.get_committed
          (SystemTableMap.commit ekey m [markDeleteOp (ekey e), markInsertOp e])
          (ekey e)
        = some e)
    ∧ (∀ (m : CommittedMap E) (e : E) (old : Bytes),
      old ≠ [] → old ≠ ekey e →
      SystemTableMap.get_committed
          (SystemTableMap.commit ekey m [markUpdateOp e old, markDeleteOp old])
          (ekey e)
        = some e
      ∧ SystemTableMap.get_committed
          (SystemTableMap.commit ekey m [markUpdateOp e old, markDeleteOp old])
          old
        = none) := by
  have main : ∀ (pending : List (PendingOperation E)) (m : CommittedMap E)
      (k : Bytes),
      SystemTableMap.get_committed (SystemTableMap.commit ekey m pending) k
        = applyPendingSpec ekey (SystemTableMap.get_committed m) pending k := by
    intro pending
    induction pending with
    | nil => intro m k; rfl
    | cons op rest ih =>
      intro m k
      simp only [SystemTableMap.commit, List.foldl_cons] at *
      rw [ih (commitStep ekey m op) k]
      exact applyPendingSpec_congr ekey rest
        (fun k' => commitStep_spec ekey m op k') k
  refine ⟨fun m pending k => main pending m k, ?_, ?_⟩
  · intro m e
    simp only [SystemTableMap.commit, List.foldl_cons, List.foldl_nil,
      markDeleteOp, markInsertOp, commitStep]
    rw [if_neg (show ¬ (OperationType.INSERT = OperationType.UPDATE ∧
        ([] : Bytes) ≠ [] ∧ ([] : Bytes) ≠ ekey e) from
      fun hc => absurd hc.1 (by decide))]
    rw [SystemTableMap.get_committed, mapFind_insert, if_pos rfl]
  · intro m e old h1 h2
    simp only [SystemTableMap.commit, List.foldl_cons, List.foldl_nil,
      markUpdateOp, markDeleteOp, commitStep]
    rw [if_pos (show True ∧ old ≠ [] ∧ old ≠ ekey e from ⟨trivial, h1, h2⟩)]
    constructor
    · rw [SystemTableMap.get_committed, mapFind_erase,
        if_neg (show ¬ ekey e = old from fun hh => h2 hh.symm),
        mapFind_erase,
        if_neg (show ¬ ekey e = old from fun hh => h2 hh.symm),
        mapFind_insert, if_pos rfl]
    · rw [SystemTableMap.get_committed, mapFind_erase, if_pos rfl]

/-!
### DDL staging order (`Metadata_modifier::mark_victionary_modifications`)

Model of metadata_modifier.cc, lines 507-551: under the write guard the
accumulated column changes are staged into the `columns` map in three
passes, in this fixed order — first every entry of `to_remove_` via
`MarkForDeletion(entry.key())`, then every pair of `to_rename_` via
`MarkForUpdate(new_entry, old_key)`, then every entry of `to_add_` via
`MarkForInsertion(entry)`.
-/

/-- The pending-operation list of a session after
`mark_victionary_modifications` ran on the three accumulated vectors. -/
def markVictionaryModifications {E : Type} (ekey : E → Bytes)
    (pending : List (PendingOperation E)) (to_remove : List E)
    (to_rename : List (E × Bytes)) (to_add : List E) :
    List (PendingOperation E) :=
  pending
    ++ to_remove.map (fun entry => markDeleteOp (ekey entry))
    ++ to_rename.map (fun p => markUpdateOp p.1 p.2)
    ++ to_add.map (fun entry => markInsertOp entry)

/-- C5: `mark_victionary_modifications` stages all removals first, then all
renames, then all insertions, whatever the three vectors contain; and
together with in-order `commit` a custom-to-custom MODIFY — a removal and an
insertion that reuse the same key — ends with the inserted entry present. -/
theorem mark_victionary_modifications_order {E : Type} (ekey : E → Bytes) :
    (∀ (pending : List (PendingOperation E)) (to_remove : List E)
        (to_rename : List (E × Bytes)) (to_add : List E),
      (markVictionaryModifications ekey pending to_remove to_rename
          to_add).map (fun op => op.op_type)
        = pending.map (fun op => op.op_type)
          ++ List.replicate to_remove.length .DELETE
          ++ List.replicate to_rename.length .UPDATE
          ++ List.replicate to_add.length .INSERT)
    ∧ (∀ (m : CommittedMap E) (eOld e : E), ekey eOld = ekey e →
      SystemTableMap.get_committed
          (SystemTableMap.commit ekey m
            (markVictionaryModifications ekey [] [eOld] [] [e]))
          (ekey e)
        = some e) := by
  have hconst : ∀ {α : Type} (l : List α) (g : α → PendingOperation E)
      (c : OperationType), (∀ x, (g x).op_type = c) →
      (l.map g).map (fun op => op.op_type) = List.replicate l.length c := by
    intro α l g c hg
    induction l with
    | nil => rfl
    | cons a t ih => simp [hg, ih, List.replicate_succ]
  constructor
  · intro pending to_remove to_rename to_add
    simp only [markVictionaryModifications, List.map_append]
    rw [hconst to_remove _ OperationType.DELETE (fun x => rfl),
      hconst to_rename _ OperationType.UPDATE (fun x => rfl),
      hconst to_add _ OperationType.INSERT (fun x => rfl)]
  · intro m eOld e h
    simp only [markVictionaryModifications, List.map, List.nil_append,
      List.cons_append, List.singleton_append, SystemTableMap.commit,
      List.foldl_cons, List.foldl_nil, commitStep, markDeleteOp, markInsertOp]
    rw [if_neg (show ¬ (OperationType.INSERT = OperationType.UPDATE ∧
        ([] : Bytes) ≠ [] ∧ ([] : Bytes) ≠ ekey e) from
      fun hc => absurd hc.1 (by decide))]
    rw [SystemTableMap.get_committed, mapFind_insert, if_pos rfl]

/-- Witness for C5: a concrete custom-to-custom MODIFY, with the removal of
the old entry staged before the insertion of its replacement. -/
theorem mark_victionary_modifications_order_witness :
    (fun n => [n % 10]) (41 : Nat) = (fun n => [n % 10]) (1 : Nat)
    ∧ SystemTableMap.get_committed
        (SystemTableMap.commit (fun n => [n % 10])
          ([([1], 41)] : CommittedMap Nat)
          (markVictionaryModifications (fun n => [n % 10]) [] [41] [] [1]))
        ((fun n => [n % 10]) (1 : Nat))
      = some 1 :=
  ⟨by decide,
    (mark_victionary_modifications_order (fun n => [n % 10])).2
      [([1], 41)] 41 1 (by decide)⟩

/-- Witness for C2: the renaming-Update-then-Delete scenario at a concrete
input. -/
theorem commit_applies_pending_in_order_witness :
    ([5] : Bytes) ≠ [] ∧ ([5] : Bytes) ≠ [2]
    ∧ SystemTableMap.get_committed
        (SystemTableMap.commit (fun n => [n]) ([([5], 9)] : CommittedMap Nat)
          [markUpdateOp 2 [5], markDeleteOp [5]])
        [2]
      = some 2 :=
  ⟨by decide, by decide,
    ((commit_applies_pending_in_order (fun n => [n])).2.2 [([5], 9)] 2 [5]
      (by decide) (by decide)).1⟩

/-!
### Prefix-query lemmas
-/

/-- In a sorted map, the head key is below every later key. -/
theorem sorted_head_lt {E : Type} :
    ∀ {rest : CommittedMap E} {kv : Bytes × E},
      MapSorted (kv :: rest) → ∀ x ∈ rest, bytesLt kv.1 x.1 = true := by
  intro rest
  induction rest with
  | nil => intro kv _ x hx; cases hx
  | cons y r ih =>
    intro kv hs x hx
    have hcc := List.chain'_cons.mp hs
    rcases List.mem_cons.mp hx with hx | hx
    · rw [hx]; exact hcc.1
    · exact bytesLt_trans hcc.1 (ih hcc.2 x hx)

/-- A sorted map's tail is sorted. -/
theorem sorted_tail {E : Type} {kv : Bytes × E} {rest : CommittedMap E}
    (hs : MapSorted (kv :: rest)) : MapSorted rest :=
  List.Chain'.tail hs

theorem filter_congr_mem {α : Type} {p q : α → Bool} :
    ∀ l : List α, (∀ x ∈ l, p x = q x) → l.filter p = l.filter q := by
  intro l
  induction l with
  | nil => intro _; rfl
  | cons a t ih =>
    intro h
    have ha := h a (by simp)
    have ht := ih (fun x hx => h x (by simp [hx]))
    cases hq : q a
    · rw [List.filter_cons_of_neg (by simp [ha, hq]),
        List.filter_cons_of_neg (by simp [hq]), ht]
    · rw [List.filter_cons_of_pos (by simp [ha, hq]),
        List.filter_cons_of_pos (by simp [hq]), ht]

/-- On a sorted map, taking keys while they stay below `hi` is the same as
filtering on that bound: once a key reaches `hi`, all later ones do too. -/
theorem takeWhile_eq_filter_of_sorted {E : Type} (hi : Bytes) :
    ∀ (m : CommittedMap E), MapSorted m →
      m.takeWhile (fun kv => bytesLt kv.1 hi)
        = m.filter (fun kv => bytesLt kv.1 hi) := by
  intro m
  induction m with
  | nil => intro _; rfl
  | cons kv rest ih =>
    intro hs
    by_cases hhi : bytesLt kv.1 hi = true
    · rw [List.takeWhile_cons_of_pos (by simp [hhi]),
        List.filter_cons_of_pos (by simp [hhi]), ih (sorted_tail hs)]
    · have hhi' : bytesLt kv.1 hi = false := by
        cases h : bytesLt kv.1 hi
        · rfl
        · exact absurd h hhi
      rw [List.takeWhile_cons_of_neg (by simp [hhi']),
        List.filter_cons_of_neg (by simp [hhi'])]
      symm
      rw [List.filter_eq_nil_iff]
      intro x hx
      simp only [Bool.not_eq_true]
      cases h : bytesLt x.1 hi
      · rfl
      · exact absurd (bytesLt_trans (sorted_head_lt hs x hx) h)
          (by simp [hhi'])

/-- On a sorted map, the range scan from `lower_bound lo` while the key is
below `hi` collects exactly the entries whose key lies in the half-open
interval. -/
theorem slice_eq_filter {E : Type} (lo hi : Bytes) :
    ∀ (m : CommittedMap E), MapSorted m →
      (m.dropWhile (fun kv => bytesLt kv.1 lo)).takeWhile
          (fun kv => bytesLt kv.1 hi)
        = m.filter (fun kv => !bytesLt kv.1 lo && bytesLt kv.1 hi) := by
  intro m
  induction m with
  | nil => intro _; rfl
  | cons kv rest ih =>
    intro hs
    by_cases hlo : bytesLt kv.1 lo = true
    · rw [List.dropWhile_cons_of_pos (by simp [hlo]),
        List.filter_cons_of_neg (by simp [hlo]), ih (sorted_tail hs)]
    · have hlo' : bytesLt kv.1 lo = false := by
        cases h : bytesLt kv.1 lo
        · rfl
        · exact absurd h hlo
      rw [List.dropWhile_cons_of_neg (by simp [hlo'])]
      have hall : ∀ x ∈ (kv :: rest), bytesLt x.1 lo = false := by
        intro x hx
        rcases List.mem_cons.mp hx with hx | hx
        · rw [hx]; exact hlo'
        · cases h : bytesLt x.1 lo
          · rfl
          · exact absurd (bytesLt_trans (sorted_head_lt hs x hx) h)
              (by simp [hlo'])
      rw [takeWhile_eq_filter_of_sorted hi (kv :: rest) hs]
      exact filter_congr_mem (kv :: rest)
        (fun x hx => by simp [hall x hx])

theorem bytesLt_eq_false_of_cmp_ne {a b : Bytes} (h : bytesCmp a b ≠ .lt) :
    bytesLt a b = false := by
  unfold bytesLt
  cases hc : bytesCmp a b
  · exact absurd hc h
  · rfl
  · rfl

theorem bytesLt_cons_same (c : Nat) (t r : Bytes) :
    bytesLt (c :: t) (c :: r) = bytesLt t r := by
  simp [bytesLt, bytesCmp]

theorem dropLast_append_of_getLast :
    ∀ {p : Bytes} {b : Nat}, p.getLast? = some b → p = p.dropLast ++ [b] := by
  intro p
  induction p with
  | nil => intro b h; cases h
  | cons x t ih =>
    intro b h
    cases t with
    | nil =>
      simp only [List.getLast?_singleton, Option.some.injEq] at h
      simp [h]
    | cons y r =>
      have h' : (y :: r).getLast? = some b := by
        simpa [List.getLast?_cons_cons] using h
      have ht := ih h'
      calc x :: y :: r = x :: ((y :: r).dropLast ++ [b]) := by rw [← ht]
        _ = (x :: y :: r).dropLast ++ [b] := by simp

/-- Membership of a key in the half-open scan interval
`[q ++ [b], q ++ [b+1])` is exactly `q ++ [b]` being a prefix of the key. -/
theorem inRange_eq_isPfxOf :
    ∀ (q : Bytes) (b : Nat) (k : Bytes),
      (!(bytesLt k (q ++ [b])) && bytesLt k (q ++ [b + 1]))
        = (q ++ [b]).isPrefixOf k := by
  intro q
  induction q with
  | nil =>
    intro b k
    cases k with
    | nil => simp [bytesLt, bytesCmp, List.isPrefixOf]
    | cons c t =>
      rcases Nat.lt_trichotomy c b with h | h | h
      · have e1 : bytesLt (c :: t) [b] = true :=
          bytesLt_iff_cmp.mpr (by simp [bytesCmp, h])
        have e2 : (b == c) = false := by
          simp only [beq_eq_false_iff_ne, ne_eq]
          omega
        simp [List.isPrefixOf, e1, e2]
      · subst h
        have e1 : bytesLt (c :: t) [c] = false := by
          apply bytesLt_eq_false_of_cmp_ne
          cases t <;> simp [bytesCmp]
        have e2 : bytesLt (c :: t) [c + 1] = true :=
          bytesLt_iff_cmp.mpr (by simp [bytesCmp])
        simp [List.isPrefixOf, e1, e2]
      · have e2 : bytesLt (c :: t) [b + 1] = false := by
          apply bytesLt_eq_false_of_cmp_ne
          simp only [bytesCmp, if_neg (show ¬ c < b + 1 by omega)]
          by_cases h2 : b + 1 < c
          · simp [h2]
          · have hc : c = b + 1 := by omega
            subst hc
            cases t <;> simp [bytesCmp]
        have e3 : (b == c) = false := by
          simp only [beq_eq_false_iff_ne, ne_eq]
          omega
        simp [List.isPrefixOf, e2, e3]
  | cons x q' ih =>
    intro b k
    cases k with
    | nil => simp [bytesLt, bytesCmp, List.isPrefixOf]
    | cons c t =>
      rcases Nat.lt_trichotomy c x with h | h | h
      · have e1 : bytesLt (c :: t) (x :: (q' ++ [b])) = true :=
          bytesLt_iff_cmp.mpr (by simp [bytesCmp, h])
        have e2 : (x == c) = false := by
          simp only [beq_eq_false_iff_ne, ne_eq]
          omega
        simp [List.isPrefixOf, e1, e2]
      · subst h
        rw [List.cons_append, List.cons_append, bytesLt_cons_same,
          bytesLt_cons_same, ih b t]
        simp [List.isPrefixOf]
      · have e2 : bytesLt (c :: t) (x :: (q' ++ [b + 1])) = false := by
          apply bytesLt_eq_false_of_cmp_ne
          simp [bytesCmp, show ¬ c < x by omega, h]
        have e3 : (x == c) = false := by
          simp only [beq_eq_false_iff_ne, ne_eq]
          omega
        simp [List.isPrefixOf, e2, e3]

/-- The `has_prefix_committed` test answers precisely whether the
`get_prefix_committed` scan would return at least one entry. -/
theorem hasPfx_iff_nonempty {E : Type} (m : CommittedMap E) (p : Bytes) :
    SystemTableMap.has_prefix_committed m p = true
      ↔ SystemTableMap.get_prefix_committed m p ≠ [] := by
  unfold SystemTableMap.has_prefix_committed SystemTableMap.get_prefix_committed
  by_cases hp : p = []
  · simp [hp]
  · rw [if_neg hp, if_neg hp]
    cases hd : m.dropWhile (fun kv => bytesLt kv.1 p) with
    | nil => simp
    | cons kv rest =>
      by_cases hkv : bytesLt kv.1 (upperBound p) = true
      · simp [List.takeWhile_cons, hkv]
      · have hkv' : bytesLt kv.1 (upperBound p) = false := by
          cases hh : bytesLt kv.1 (upperBound p)
          · rfl
          · exact absurd hh hkv
        simp [List.takeWhile_cons, hkv']

theorem mapSorted_singleton {E : Type} (kv : Bytes × E) : MapSorted [kv] :=
  List.chain'_singleton kv

theorem mapSorted_pair {E : Type} {a b : Bytes × E}
    (h : bytesLt a.1 b.1 = true) : MapSorted [a, b] :=
  List.chain'_cons.mpr ⟨h, List.chain'_singleton b⟩

/-- The multiset of committed entries whose normalized key string has the
prefix string as a strict prefix: the reading C6 asserts for
`get_prefix_committed`. -/
def strictPfxEntries {E : Type} (m : CommittedMap E) (p : Bytes) : List E :=
  (m.filter (fun kv => p.isPrefixOf kv.1 && !(kv.1 == p))).map Prod.snd

/-- Counterexample to C6 as stated: on the sorted committed map holding the
single key "a." (bytes 97, 46) and the prefix "a.", the scan returns that
entry although the prefix is not a strict prefix of its key. -/
theorem get_prefix_committed_strict_counterexample :
    MapSorted ([([97, 46], 0)] : CommittedMap Nat)
    ∧ ([97, 46] : Bytes) ≠ []
    ∧ SystemTableMap.get_prefix_committed
        ([([97, 46], 0)] : CommittedMap Nat) [97, 46]
      ≠ strictPfxEntries ([([97, 46], 0)] : CommittedMap Nat) [97, 46] := by
  refine ⟨mapSorted_singleton _, by decide, ?_⟩
  decide

/-- C6 amended: on every sorted committed map, for every non-empty prefix
string whose final byte is below 0xFF (every prefix key the source builds
ends in a dot, byte 46), `get_prefix_committed` returns exactly the entries
whose normalized key has the prefix string as a prefix — the key equal to
the prefix string included, which is the one reading the original claim
rules out — and `has_prefix_committed` is true exactly when that list is
non-empty. -/
theorem get_prefix_committed_returns_range {E : Type} (m : CommittedMap E)
    (p : Bytes) (b : Nat) (hs : MapSorted m) (hb : p.getLast? = some b)
    (hb255 : b < 255) :
    SystemTableMap.get_prefix_committed m p
      = (m.filter (fun kv => p.isPrefixOf kv.1)).map Prod.snd
    ∧ (SystemTableMap.has_prefix_committed m p = true
        ↔ SystemTableMap.get_prefix_committed m p ≠ []) := by
  have hp : p ≠ [] := by
    intro h
    rw [h] at hb
    cases hb
  refine ⟨?_, hasPfx_iff_nonempty m p⟩
  unfold SystemTableMap.get_prefix_committed
  rw [if_neg hp]
  have hup : upperBound p = p.dropLast ++ [b + 1] := by
    unfold upperBound
    rw [hb]
    simp [Nat.mod_eq_of_lt (show b + 1 < 256 by omega)]
  have hpe : p = p.dropLast ++ [b] := dropLast_append_of_getLast hb
  simp only [hup]
  rw [slice_eq_filter p (p.dropLast ++ [b + 1]) m hs]
  congr 1
  refine filter_congr_mem m (fun kv hkv => ?_)
  have hrange := inRange_eq_isPfxOf p.dropLast b kv.1
  rw [← hpe] at hrange
  exact hrange

/-- Witness for the amended C6 on a concrete sorted two-entry map. -/
theorem get_prefix_committed_returns_range_witness :
    MapSorted ([([97, 46, 120], 3), ([98], 4)] : CommittedMap Nat)
    ∧ ([97, 46] : Bytes).getLast? = some 46
    ∧ 46 < 255
    ∧ (SystemTableMap.get_prefix_committed
          ([([97, 46, 120], 3), ([98], 4)] : CommittedMap Nat) [97, 46]
        = (([([97, 46, 120], 3), ([98], 4)] : CommittedMap Nat).filter
            (fun kv => ([97, 46] : Bytes).isPrefixOf kv.1)).map Prod.snd
      ∧ (SystemTableMap.has_prefix_committed
            ([([97, 46, 120], 3), ([98], 4)] : CommittedMap Nat) [97, 46]
            = true
          ↔ SystemTableMap.get_prefix_committed
              ([([97, 46, 120], 3), ([98], 4)] : CommittedMap Nat) [97, 46]
            ≠ [])) :=
  ⟨mapSorted_pair (by decide), by decide, by decide,
    get_prefix_committed_returns_range [([97, 46, 120], 3), ([98], 4)]
      [97, 46] 46 (mapSorted_pair (by decide)) (by decide) (by decide)⟩

end VSQL

namespace VSQL

/-!
## SemVer

Model of `villagesql/common/semver.cc` and `villagesql/include/semver.h`.
Version strings are `List Char`; `unsigned long` values are `Nat` with the
explicit `ULONG_MAX` bound checks the source performs (64-bit target, so
`ULONG_MAX = 2^64 - 1`; `strtoul` saturates at `ULONG_MAX` on overflow).
-/

/-- A dot-separated identifier. -/
abbrev Ident := List Char

/-- ULONG_MAX on the 64-bit target. -/
def ULONG_MAX : Nat := 2 ^ 64 - 1

/-- C `isdigit` in the C locale. -/
def isDigitChar (c : Char) : Bool := 48 ≤ c.toNat && c.toNat ≤ 57

/-- C `isalnum` in the C locale. -/
def isAlnumChar (c : Char) : Bool :=
  isDigitChar c || (65 ≤ c.toNat && c.toNat ≤ 90)
    || (97 ≤ c.toNat && c.toNat ≤ 122)

/-- Model of `Semver::is_numeric`: non-empty and all digits. -/
def isNumeric (s : Ident) : Bool := !s.isEmpty && s.all isDigitChar

/-- Model of `Semver::is_valid_identifier`: non-empty, alphanumerics and
hyphens only. -/
def isValidIdentifier (id : Ident) : Bool :=
  !id.isEmpty && id.all (fun c => isAlnumChar c || c == '-')

/-- The value of a digit string, accumulated the way `strtoul` / `std::stoul`
accumulate digits. -/
def digitsToNat (s : List Char) : Nat :=
  s.foldl (fun acc c => acc * 10 + (c.toNat - 48)) 0

/-- Model of `strtoul` on an all-digit string: the digit value, saturated at
`ULONG_MAX` on overflow. -/
def strtoulModel (s : List Char) : Nat := min (digitsToNat s) ULONG_MAX

/-- Mirrors `class Semver` (semver.h): core numbers, pre-release and
build-metadata identifier lists, and the validity flag. -/
structure Semver where
  major : Nat
  minor : Nat
  patch : Nat
  prerelease : List Ident
  build_metadata : List Ident
  valid : Bool
deriving DecidableEq, Repr

/-- The default-constructed `Semver()`: 0.0.0, invalid. -/
def Semver.invalid : Semver := ⟨0, 0, 0, [], [], false⟩

/-- A numeric identifier with a forbidden leading zero
(`is_numeric(id) && id.length() > 1 && id[0] == '0'`). -/
def leadingZeroNumeric (id : Ident) : Bool :=
  isNumeric id && decide (1 < id.length) && (id.headD ' ' == '0')

/-- Identifier validation applied to each pre-release identifier inside the
parse loop. -/
def validPrereleaseId (id : Ident) : Bool :=
  isValidIdentifier id && !leadingZeroNumeric id

/-- The dot-splitting loop of `Semver::parse`: while the section is
non-empty, drop the leading separator (`'-'`, `'+'` or `'.'`), take the
identifier up to the next dot, validate it, and continue after it.  The
fuel argument makes the recursion structural; `parseDotIds` supplies fuel
equal to the section length, which the loop never exceeds. -/
def parseDotIdsAux (validate : Ident → Bool) : Nat → List Char → Option (List Ident)
  | _, [] => some []
  | 0, _ :: _ => none
  | fuel + 1, _ :: t =>
    let id := t.takeWhile (fun c => c != '.')
    if validate id then
      match parseDotIdsAux validate fuel (t.drop id.length) with
      | some ids => some (id :: ids)
      | none => none
    else none

/-- Dot-separated identifier-section parsing of `Semver::parse`. -/
def parseDotIds (validate : Ident → Bool) (l : List Char) :
    Option (List Ident) :=
  parseDotIdsAux validate l.length l

/-- Build-metadata stage of `Semver::parse` (lines 131-157): if the
remaining input starts with `'+'`, split it into validated identifiers;
otherwise there is no build metadata. -/
def semverParseBuild (rest2 : List Char) (major minor patch : Nat)
    (pre : List Ident) : Option Semver :=
  if rest2.head? == some '+' then
    match parseDotIds isValidIdentifier rest2 with
    | none => none
    | some bm =>
      if bm.isEmpty then none
      else some ⟨major, minor, patch, pre, bm, true⟩
  else some ⟨major, minor, patch, pre, [], true⟩

/-- Pre-release stage of `Semver::parse` (lines 94-129): if the remaining
input starts with `'-'`, the pre-release section runs up to the first `'+'`
and is split into validated identifiers. -/
def semverParsePre (rest : List Char) (major minor patch : Nat) :
    Option Semver :=
  if rest.head? == some '-' then
    let prerelease_str := rest.takeWhile (fun c => c != '+')
    let rest2 := rest.drop prerelease_str.length
    match parseDotIds validPrereleaseId prerelease_str with
    | none => none
    | some pre =>
      if pre.isEmpty then none
      else semverParseBuild rest2 major minor patch pre
  else semverParseBuild rest major minor patch []

/-- Model of `Semver::parse` (semver.cc lines 41-166): `none` exactly when
the source returns `false` (leaving the default invalid state). -/
def semverParse (s : List Char) : Option Semver :=
  if s.isEmpty then none
  else
    let core_version := s.takeWhile (fun c => c != '+' && c != '-')
    let rest := s.drop core_version.length
    if core_version.count '.' ≠ 2 then none
    else
      let major_str := core_version.takeWhile (fun c => c != '.')
      let after_major := core_version.drop (major_str.length + 1)
      let minor_str := after_major.takeWhile (fun c => c != '.')
      let patch_str := after_major.drop (minor_str.length + 1)
      if !(isNumeric major_str && isNumeric minor_str && isNumeric patch_str)
      then none
      else if (decide (1 < major_str.length) && (major_str.headD ' ' == '0'))
          || (decide (1 < minor_str.length) && (minor_str.headD ' ' == '0'))
          || (decide (1 < patch_str.length) && (patch_str.headD ' ' == '0'))
      then none
      else
        let major_tmp := strtoulModel major_str
        let minor_tmp := strtoulModel minor_str
        let patch_tmp := strtoulModel patch_str
        if major_tmp == ULONG_MAX || minor_tmp == ULONG_MAX
            || patch_tmp == ULONG_MAX
        then none
        else semverParsePre rest major_tmp minor_tmp patch_tmp

/-- Model of `Semver::from_string`: the parsed version on success, the
default invalid `Semver` on failure. -/
def Semver.from_string (s : List Char) : Semver :=
  (semverParse s).getD Semver.invalid

/-- Model of `Semver::from_components` (semver.cc lines 174-208). -/
def Semver.from_components (major minor patch : Nat) (pre bm : List Ident) :
    Semver :=
  if pre.all (fun id => isValidIdentifier id && !leadingZeroNumeric id)
      && bm.all isValidIdentifier
  then ⟨major, minor, patch, pre, bm, true⟩
  else Semver.invalid

/-- Decimal digits of a natural number, most significant first — the
characters `snprintf("%lu")` writes.  The fuel argument makes the recursion
structural; `natDigits` supplies fuel `n + 1`, which the division chain
never exhausts. -/
def natDigitsAux : Nat → Nat → List Char
  | 0, _ => []
  | fuel + 1, n =>
    if n < 10 then [Char.ofNat (48 + n)]
    else natDigitsAux fuel (n / 10) ++ [Char.ofNat (48 + n % 10)]

/-- Decimal rendering of a natural number. -/
def natDigits (n : Nat) : List Char := natDigitsAux (n + 1) n

/-- Serialization of an identifier list: the given separator before the
first identifier, dots before the rest (`r.push_back(i == 0 ? sep : '.')`). -/
def serializeIds (sep : Char) : List Ident → List Char
  | [] => []
  | id :: rest => sep :: (id ++ serializeIds '.' rest)

/-- Model of `Semver::to_string` (semver.cc lines 210-239).  The core is
rendered by `snprintf` into a 33-byte buffer, so at most 32 characters of
it are defined (the source then reads `n` bytes back; past 32 that read is
undefined, and the model keeps the 32 defined characters). -/
def Semver.to_string (v : Semver) : List Char :=
  if !v.valid then []
  else
    let core := natDigits v.major ++ '.' :: natDigits v.minor
      ++ '.' :: natDigits v.patch
    core.take 32 ++ serializeIds '-' v.prerelease
      ++ serializeIds '+' v.build_metadata

/-- Lexicographic comparison of identifier strings by character value
(`std::string::operator<`). -/
def charListLt (a b : Ident) : Bool :=
  bytesLt (a.map Char.toNat) (b.map Char.toNat)

/-- `std::stoul` on an all-digit string: the value when it is representable
in `unsigned long`, `none` for the `std::out_of_range` it throws above
`ULONG_MAX`.  (Unlike the C `strtoul` of `parse`, which saturates.) -/
def stoulModel (s : List Char) : Option Nat :=
  if digitsToNat s ≤ ULONG_MAX then some (digitsToNat s) else none

/-- The element-wise loop of `Semver::compare_prerelease` together with its
final length comparison: numeric identifiers compare by `std::stoul` value
(`none` when either `std::stoul` call throws `std::out_of_range`,
semver.cc lines 258-259), numeric sorts before alphanumeric, alphanumerics
compare lexically, and when the compared elements are exhausted the shorter
list sorts first. -/
def cmpIdsLoop : List Ident → List Ident → Option Int
  | [], [] => some 0
  | [], _ :: _ => some (-1)
  | _ :: _, [] => some 1
  | l :: ls, r :: rs =>
    if isNumeric l && isNumeric r then
      match stoulModel l, stoulModel r with
      | some l_val, some r_val =>
        if l_val < r_val then some (-1)
        else if r_val < l_val then some 1
        else cmpIdsLoop ls rs
      | _, _ => none
    else if isNumeric l && !isNumeric r then some (-1)
    else if !(isNumeric l) && isNumeric r then some 1
    else
      if charListLt l r then some (-1)
      else if charListLt r l then some 1
      else cmpIdsLoop ls rs

/-- Model of `Semver::compare_prerelease` (semver.cc lines 241-279);
`none` when the identifier loop throws. -/
def Semver.compare_prerelease (a b : Semver) : Option Int :=
  if a.prerelease.isEmpty && !b.prerelease.isEmpty then some 1
  else if !a.prerelease.isEmpty && b.prerelease.isEmpty then some (-1)
  else if a.prerelease.isEmpty && b.prerelease.isEmpty then some 0
  else cmpIdsLoop a.prerelease b.prerelease

/-- Model of `Semver::operator==`: false when either side is invalid, and
build metadata is ignored.  (No `std::stoul` involved: always returns.) -/
def Semver.eq (a b : Semver) : Bool :=
  a.valid && b.valid && a.major == b.major && a.minor == b.minor
    && a.patch == b.patch && a.prerelease == b.prerelease

/-- Model of `Semver::operator<`: false when either side is invalid;
otherwise core numbers first, then the pre-release comparison, whose
`std::out_of_range` (`none`) propagates out of the operator. -/
def Semver.lt (a b : Semver) : Option Bool :=
  if !a.valid || !b.valid then some false
  else if a.major ≠ b.major then some (decide (a.major < b.major))
  else if a.minor ≠ b.minor then some (decide (a.minor < b.minor))
  else if a.patch ≠ b.patch then some (decide (a.patch < b.patch))
  else (Semver.compare_prerelease a b).map (fun c => decide (c < 0))

/-- Model of `Semver::operator<=` (`<` is evaluated first; its exception
propagates, `==` always returns). -/
def Semver.le (a b : Semver) : Option Bool :=
  (Semver.lt a b).map (fun l => l || Semver.eq a b)

/-- Model of `Semver::operator>`, the negation of `operator<=`. -/
def Semver.gt (a b : Semver) : Option Bool :=
  (Semver.le a b).map (fun l => !l)

/-- Model of `Semver::operator>=`, the negation of `operator<`. -/
def Semver.ge (a b : Semver) : Option Bool :=
  (Semver.lt a b).map (fun l => !l)

/-!
### Decimal-digit arithmetic lemmas
-/

theorem char_toNat_inj {c1 c2 : Char} (h : c1.toNat = c2.toNat) : c1 = c2 := by
  have h2 := congrArg Char.ofNat h
  rwa [Char.ofNat_toNat, Char.ofNat_toNat] at h2

theorem toNat_ofNat_digit {n : Nat} (h : n < 10) :
    (Char.ofNat (48 + n)).toNat = 48 + n := by
  interval_cases n <;> decide

theorem isDigitChar_ofNat_digit {n : Nat} (h : n < 10) :
    isDigitChar (Char.ofNat (48 + n)) = true := by
  interval_cases n <;> decide

theorem ofNat_digit_ne_zero {n : Nat} (h1 : n < 10) (h2 : 1 ≤ n) :
    Char.ofNat (48 + n) ≠ '0' := by
  interval_cases n <;> decide

theorem digit_toNat_sub {c : Char} (h : isDigitChar c = true) :
    c.toNat - 48 ≤ 9 := by
  simp only [isDigitChar, Bool.and_eq_true, decide_eq_true_eq] at h
  omega

theorem digitsToNat_append_singleton (A : List Char) (c : Char) :
    digitsToNat (A ++ [c]) = 10 * digitsToNat A + (c.toNat - 48) := by
  simp [digitsToNat, List.foldl_append]
  ring

theorem digitsToNat_acc (s : List Char) :
    ∀ acc : Nat,
      s.foldl (fun acc c => acc * 10 + (c.toNat - 48)) acc
        = acc * 10 ^ s.length + digitsToNat s := by
  induction s with
  | nil => intro acc; simp [digitsToNat]
  | cons c t ih =>
    intro acc
    simp only [List.foldl_cons, List.length_cons]
    rw [ih (acc * 10 + (c.toNat - 48))]
    have h2 : digitsToNat (c :: t)
        = (c.toNat - 48) * 10 ^ t.length + digitsToNat t := by
      show List.foldl _ (0 * 10 + (c.toNat - 48)) t = _
      rw [ih (0 * 10 + (c.toNat - 48))]
      ring_nf
    rw [h2]
    ring

theorem digitsToNat_cons (c : Char) (t : List Char) :
    digitsToNat (c :: t) = (c.toNat - 48) * 10 ^ t.length + digitsToNat t := by
  show List.foldl _ (0 * 10 + (c.toNat - 48)) t = _
  rw [digitsToNat_acc t (0 * 10 + (c.toNat - 48))]
  ring_nf

theorem digitsToNat_lt (s : List Char)
    (h : ∀ c ∈ s, isDigitChar c = true) :
    digitsToNat s < 10 ^ s.length := by
  induction s with
  | nil => simp [digitsToNat]
  | cons c t ih =>
    rw [digitsToNat_cons]
    have hc := digit_toNat_sub (h c (by simp))
    have ht := ih (fun x hx => h x (by simp [hx]))
    have hpow : (10 : Nat) ^ (c :: t).length = 10 * 10 ^ t.length := by
      simp [List.length_cons, pow_succ]
      ring
    rw [hpow]
    calc (c.toNat - 48) * 10 ^ t.length + digitsToNat t
        ≤ 9 * 10 ^ t.length + digitsToNat t := by
          exact Nat.add_le_add_right
            (Nat.mul_le_mul_right _ hc) _
      _ < 9 * 10 ^ t.length + 10 ^ t.length := by omega
      _ = 10 * 10 ^ t.length := by ring

theorem digitsToNat_ge (c : Char) (t : List Char)
    (hd : isDigitChar c = true) (hz : c ≠ '0') :
    10 ^ t.length ≤ digitsToNat (c :: t) := by
  rw [digitsToNat_cons]
  have h1 : 1 ≤ c.toNat - 48 := by
    simp only [isDigitChar, Bool.and_eq_true, decide_eq_true_eq] at hd
    rcases Nat.lt_or_ge 48 c.toNat with h | h
    · omega
    · exfalso
      have hc : c.toNat = 48 := by omega
      exact hz (char_toNat_inj (show c.toNat = ('0' : Char).toNat from hc))
  calc 10 ^ t.length = 1 * 10 ^ t.length := by ring
    _ ≤ (c.toNat - 48) * 10 ^ t.length := Nat.mul_le_mul_right _ h1
    _ ≤ _ := Nat.le_add_right _ _

theorem digits_inj_of_length_eq :
    ∀ (s1 s2 : List Char), s1.length = s2.length →
      (∀ c ∈ s1, isDigitChar c = true) → (∀ c ∈ s2, isDigitChar c = true) →
      digitsToNat s1 = digitsToNat s2 → s1 = s2 := by
  intro s1
  induction s1 with
  | nil =>
    intro s2 hl _ _ _
    cases s2 with
    | nil => rfl
    | cons c t => simp at hl
  | cons c1 t1 ih =>
    intro s2 hl hd1 hd2 hv
    cases s2 with
    | nil => simp at hl
    | cons c2 t2 =>
      have hlt : t1.length = t2.length := by simpa using hl
      rw [digitsToNat_cons, digitsToNat_cons, hlt] at hv
      have hb1 : digitsToNat t1 < 10 ^ t2.length := hlt ▸
        digitsToNat_lt t1 (fun x hx => hd1 x (by simp [hx]))
      have hb2 : digitsToNat t2 < 10 ^ t2.length :=
        digitsToNat_lt t2 (fun x hx => hd2 x (by simp [hx]))
      have hceq : c1.toNat - 48 = c2.toNat - 48 := by
        by_contra hne
        rcases Nat.lt_or_ge (c1.toNat - 48) (c2.toNat - 48) with h | h
        · have : (c1.toNat - 48) * 10 ^ t2.length + digitsToNat t1
              < (c2.toNat - 48) * 10 ^ t2.length := by
            calc (c1.toNat - 48) * 10 ^ t2.length + digitsToNat t1
                < (c1.toNat - 48) * 10 ^ t2.length + 10 ^ t2.length := by omega
              _ = (c1.toNat - 48 + 1) * 10 ^ t2.length := by ring
              _ ≤ (c2.toNat - 48) * 10 ^ t2.length :=
                  Nat.mul_le_mul_right _ (by omega)
          omega
        · have hlt2 : c2.toNat - 48 < c1.toNat - 48 := by omega
          have : (c2.toNat - 48) * 10 ^ t2.length + digitsToNat t2
              < (c1.toNat - 48) * 10 ^ t2.length := by
            calc (c2.toNat - 48) * 10 ^ t2.length + digitsToNat t2
                < (c2.toNat - 48) * 10 ^ t2.length + 10 ^ t2.length := by omega
              _ = (c2.toNat - 48 + 1) * 10 ^ t2.length := by ring
              _ ≤ (c1.toNat - 48) * 10 ^ t2.length :=
                  Nat.mul_le_mul_right _ (by omega)
          omega
      have hch : c1 = c2 := by
        apply char_toNat_inj
        have h1 : 48 ≤ c1.toNat := by
          have := hd1 c1 (by simp)
          simp only [isDigitChar, Bool.and_eq_true, decide_eq_true_eq] at this
          exact this.1
        have h2 : 48 ≤ c2.toNat := by
          have := hd2 c2 (by simp)
          simp only [isDigitChar, Bool.and_eq_true, decide_eq_true_eq] at this
          exact this.1
        omega
      have hveq : digitsToNat t1 = digitsToNat t2 := by
        have := hv
        rw [hceq] at this
        omega
      rw [hch, ih t2 hlt (fun x hx => hd1 x (by simp [hx]))
        (fun x hx => hd2 x (by simp [hx])) hveq]

/-- The canonical-digit-string well-formedness the parser enforces. -/
def CanonDigits (s : List Char) : Prop :=
  s ≠ [] ∧ (∀ c ∈ s, isDigitChar c = true)
    ∧ (1 < s.length → s.headD ' ' ≠ '0')

theorem canonDigits_inj {s1 s2 : List Char} (h1 : CanonDigits s1)
    (h2 : CanonDigits s2) (hv : digitsToNat s1 = digitsToNat s2) :
    s1 = s2 := by
  obtain ⟨hne1, hd1, hz1⟩ := h1
  obtain ⟨hne2, hd2, hz2⟩ := h2
  have hlen : s1.length = s2.length := by
    by_contra hne
    have hgen : ∀ (a b : List Char), a ≠ [] → b ≠ [] →
        (∀ c ∈ a, isDigitChar c = true) → (∀ c ∈ b, isDigitChar c = true) →
        (1 < b.length → b.headD ' ' ≠ '0') →
        a.length < b.length → digitsToNat a = digitsToNat b → False := by
      intro a b ha hb hda hdb hzb hab hvab
      cases b with
      | nil => exact hb rfl
      | cons cb tb =>
        have hblen : 1 < (cb :: tb).length := by
          simp only [List.length_cons]
          have : 1 ≤ a.length := by
            cases a with
            | nil => exact absurd rfl ha
            | cons _ _ => simp
          simp only [List.length_cons] at hab
          omega
        have hhead : cb ≠ '0' := by
          have := hzb hblen
          simpa using this
        have hlow : 10 ^ tb.length ≤ digitsToNat (cb :: tb) :=
          digitsToNat_ge cb tb (hdb cb (by simp)) hhead
        have hup : digitsToNat a < 10 ^ a.length := digitsToNat_lt a hda
        have hpowle : 10 ^ a.length ≤ 10 ^ tb.length := by
          apply Nat.pow_le_pow_right (by omega)
          simp only [List.length_cons] at hab
          omega
        omega
    rcases Nat.lt_or_ge s1.length s2.length with h | h
    · exact hgen s1 s2 hne1 hne2 hd1 hd2 hz2 h hv
    · have hlt : s2.length < s1.length := by omega
      exact hgen s2 s1 hne2 hne1 hd2 hd1 hz1 hlt hv.symm
  exact digits_inj_of_length_eq s1 s2 hlen hd1 hd2 hv

theorem headD_append_left {α : Type} {A : List α} (B : List α) (d : α)
    (h : A ≠ []) : (A ++ B).headD d = A.headD d := by
  cases A with
  | nil => exact absurd rfl h
  | cons a t => rfl

theorem natDigitsAux_canon :
    ∀ (fuel n : Nat), n < fuel →
      natDigitsAux fuel n ≠ []
        ∧ (∀ c ∈ natDigitsAux fuel n, isDigitChar c = true)
        ∧ digitsToNat (natDigitsAux fuel n) = n
        ∧ (1 ≤ n → (natDigitsAux fuel n).headD ' ' ≠ '0') := by
  intro fuel
  induction fuel with
  | zero => intro n h; omega
  | succ f ih =>
    intro n hn
    by_cases h10 : n < 10
    · simp only [natDigitsAux, if_pos h10]
      refine ⟨by simp, ?_, ?_, ?_⟩
      · intro c hc
        rw [List.mem_singleton.mp hc]
        exact isDigitChar_ofNat_digit h10
      · show digitsToNat ([] ++ [Char.ofNat (48 + n)]) = n
        rw [digitsToNat_append_singleton, toNat_ofNat_digit h10]
        simp [digitsToNat]
      · intro h1
        simpa using ofNat_digit_ne_zero h10 h1
    · have hdiv : n / 10 < n := Nat.div_lt_self (by omega) (by omega)
      have hrec : n / 10 < f := by omega
      obtain ⟨hne, hdig, hval, hhead⟩ := ih (n / 10) hrec
      simp only [natDigitsAux, if_neg h10]
      refine ⟨by simp, ?_, ?_, ?_⟩
      · intro c hc
        rcases List.mem_append.mp hc with hc | hc
        · exact hdig c hc
        · rw [List.mem_singleton.mp hc]
          exact isDigitChar_ofNat_digit (Nat.mod_lt n (by omega))
      · rw [digitsToNat_append_singleton, hval,
          toNat_ofNat_digit (Nat.mod_lt n (by omega))]
        omega
      · intro _
        rw [headD_append_left _ ' ' hne]
        exact hhead (by omega)

theorem natDigits_ne_nil (n : Nat) : natDigits n ≠ [] :=
  (natDigitsAux_canon (n + 1) n (by omega)).1

theorem natDigits_all_digit (n : Nat) :
    ∀ c ∈ natDigits n, isDigitChar c = true :=
  (natDigitsAux_canon (n + 1) n (by omega)).2.1

theorem digitsToNat_natDigits (n : Nat) : digitsToNat (natDigits n) = n :=
  (natDigitsAux_canon (n + 1) n (by omega)).2.2.1

theorem natDigits_headD (n : Nat) (h : 1 ≤ n) :
    (natDigits n).headD ' ' ≠ '0' :=
  (natDigitsAux_canon (n + 1) n (by omega)).2.2.2 h

/-- The parse-time leading-zero guard never fires on a rendered number. -/
theorem natDigits_guard (n : Nat) :
    (decide (1 < (natDigits n).length)
      && ((natDigits n).headD ' ' == '0')) = false := by
  by_cases h10 : n < 10
  · have hlist : natDigits n = [Char.ofNat (48 + n)] := by
      simp [natDigits, natDigitsAux, h10]
    rw [hlist]
    simp
  · have hne := natDigits_headD n (by omega)
    have hbeq : ((natDigits n).headD ' ' == '0') = false :=
      beq_eq_false_iff_ne.mpr hne
    rw [hbeq]
    simp

theorem digit_ne_dot {c : Char} (h : isDigitChar c = true) :
    (c != '.') = true := by
  simp only [bne_iff_ne, ne_eq]
  intro heq
  subst heq
  simp [isDigitChar] at h

theorem digit_ne_pm {c : Char} (h : isDigitChar c = true) :
    (c != '+' && c != '-') = true := by
  simp only [Bool.and_eq_true, bne_iff_ne, ne_eq]
  constructor
  · intro heq; subst heq; simp [isDigitChar] at h
  · intro heq; subst heq; simp [isDigitChar] at h

theorem digit_notMem_dot {s : List Char}
    (h : ∀ c ∈ s, isDigitChar c = true) : '.' ∉ s := by
  intro hmem
  have := h '.' hmem
  simp [isDigitChar] at this

theorem validId_char_ne {c : Char}
    (h : (isAlnumChar c || c == '-') = true) : c ≠ '.' ∧ c ≠ '+' := by
  rcases Bool.or_eq_true_iff.mp h with h | h
  · constructor
    · intro heq; subst heq; simp [isAlnumChar, isDigitChar] at h
    · intro heq; subst heq; simp [isAlnumChar, isDigitChar] at h
  · have hc : c = '-' := by simpa using h
    subst hc
    exact ⟨by decide, by decide⟩

theorem takeWhile_all {α : Type} (p : α → Bool) :
    ∀ l : List α, (∀ c ∈ l, p c = true) → l.takeWhile p = l := by
  intro l
  induction l with
  | nil => intro _; rfl
  | cons a t ih =>
    intro h
    rw [List.takeWhile_cons_of_pos (h a (by simp)),
      ih (fun c hc => h c (by simp [hc]))]

theorem takeWhile_all_append {α : Type} (p : α → Bool) :
    ∀ (A : List α) (c0 : α) (r : List α), (∀ c ∈ A, p c = true) →
      p c0 = false → (A ++ c0 :: r).takeWhile p = A := by
  intro A
  induction A with
  | nil =>
    intro c0 r _ hc
    simp [List.takeWhile_cons, hc]
  | cons a t ih =>
    intro c0 r h hc
    rw [List.cons_append,
      List.takeWhile_cons_of_pos (h a (by simp)),
      ih c0 r (fun c hcm => h c (by simp [hcm])) hc]

theorem drop_len_append_cons {α : Type} (A : List α) (c0 : α) (r : List α) :
    (A ++ c0 :: r).drop (A.length + 1) = r := by
  have h1 : A ++ c0 :: r = (A ++ [c0]) ++ r := by simp
  have h2 : (A ++ [c0]).length = A.length + 1 := by simp
  rw [h1, ← h2, List.drop_left]

theorem validId_mem {id : Ident} {c : Char} (h : isValidIdentifier id = true)
    (hc : c ∈ id) : (isAlnumChar c || c == '-') = true := by
  simp only [isValidIdentifier, Bool.and_eq_true, List.all_eq_true] at h
  exact h.2 c hc

theorem validId_char_ne_dot {id : Ident} (h : isValidIdentifier id = true) :
    ∀ c ∈ id, (c != '.') = true := by
  intro c hc
  simp only [bne_iff_ne, ne_eq]
  exact (validId_char_ne (validId_mem h hc)).1

theorem isNumeric_natDigits (n : Nat) : isNumeric (natDigits n) = true := by
  unfold isNumeric
  rw [Bool.and_eq_true]
  constructor
  · cases hd : natDigits n with
    | nil => exact absurd hd (natDigits_ne_nil n)
    | cons c t => rfl
  · exact List.all_eq_true.mpr (natDigits_all_digit n)

theorem serializeIds_no_plus :
    ∀ (ids : List Ident) (sep : Char), sep ≠ '+' →
      (∀ id ∈ ids, isValidIdentifier id = true) →
      ∀ c ∈ serializeIds sep ids, (c != '+') = true := by
  intro ids
  induction ids with
  | nil => intro sep _ _ c hc; cases hc
  | cons id rest ih =>
    intro sep hsep hids c hc
    simp only [serializeIds] at hc
    rcases List.mem_cons.mp hc with hc | hc
    · subst hc
      simpa [bne_iff_ne] using hsep
    · rcases List.mem_append.mp hc with hc | hc
      · simp only [bne_iff_ne, ne_eq]
        exact (validId_char_ne (validId_mem (hids id (by simp)) hc)).2
      · exact ih '.' (by decide) (fun i hi => hids i (by simp [hi])) c hc

theorem parseDotIdsAux_serialize (validate : Ident → Bool) :
    ∀ (ids : List Ident) (fuel : Nat) (sep : Char),
      (∀ id ∈ ids, validate id = true ∧ isValidIdentifier id = true) →
      (serializeIds sep ids).length ≤ fuel →
      parseDotIdsAux validate fuel (serializeIds sep ids) = some ids := by
  intro ids
  induction ids with
  | nil =>
    intro fuel sep _ _
    cases fuel <;> rfl
  | cons id rest ih =>
    intro fuel sep hids hfuel
    obtain ⟨hval, hvalid⟩ := hids id (by simp)
    cases fuel with
    | zero =>
      exfalso
      simp [serializeIds] at hfuel
    | succ f =>
      show parseDotIdsAux validate (f + 1)
        (sep :: (id ++ serializeIds '.' rest)) = some (id :: rest)
      simp only [parseDotIdsAux]
      have htake : (id ++ serializeIds '.' rest).takeWhile
          (fun c => c != '.') = id := by
        cases hr : rest with
        | nil =>
          simp only [serializeIds, List.append_nil]
          exact takeWhile_all _ id (validId_char_ne_dot hvalid)
        | cons r1 rr =>
          simp only [serializeIds]
          exact takeWhile_all_append _ id '.' _
            (validId_char_ne_dot hvalid) (by decide)
      rw [htake, if_pos hval, List.drop_left,
        ih f '.' (fun i hi => hids i (by simp [hi])) ?_]
      have hlen : (serializeIds sep (id :: rest)).length
          = 1 + id.length + (serializeIds '.' rest).length := by
        simp [serializeIds]
        omega
      rw [hlen] at hfuel
      omega

theorem parseDotIds_serialize (validate : Ident → Bool) (ids : List Ident)
    (sep : Char)
    (hids : ∀ id ∈ ids, validate id = true ∧ isValidIdentifier id = true) :
    parseDotIds validate (serializeIds sep ids) = some ids :=
  parseDotIdsAux_serialize validate ids _ sep hids (le_refl _)

theorem semverParseBuild_serialize (major minor patch : Nat)
    (pre build : List Ident)
    (hwf : ∀ id ∈ build, isValidIdentifier id = true) :
    semverParseBuild (serializeIds '+' build) major minor patch pre
      = some ⟨major, minor, patch, pre, build, true⟩ := by
  cases build with
  | nil => rfl
  | cons b bs =>
    show semverParseBuild ('+' :: (b ++ serializeIds '.' bs)) _ _ _ _ = _
    simp only [semverParseBuild, List.head?]
    rw [if_pos (by rfl)]
    have hp : parseDotIds isValidIdentifier (serializeIds '+' (b :: bs))
        = some (b :: bs) :=
      parseDotIds_serialize isValidIdentifier (b :: bs) '+'
        (fun i hi => ⟨hwf i hi, hwf i hi⟩)
    rw [show ('+' :: (b ++ serializeIds '.' bs))
        = serializeIds '+' (b :: bs) from rfl, hp]
    rfl

theorem semverParsePre_serialize (major minor patch : Nat)
    (pre build : List Ident)
    (hpre : ∀ id ∈ pre, validPrereleaseId id = true
      ∧ isValidIdentifier id = true)
    (hbuild : ∀ id ∈ build, isValidIdentifier id = true) :
    semverParsePre (serializeIds '-' pre ++ serializeIds '+' build)
        major minor patch
      = some ⟨major, minor, patch, pre, build, true⟩ := by
  cases pre with
  | nil =>
    simp only [serializeIds, List.nil_append]
    have hnotdash : ((serializeIds '+' build).head? == some '-') = false := by
      cases build with
      | nil => rfl
      | cons b bs => rfl
    unfold semverParsePre
    rw [hnotdash]
    simp only [Bool.false_eq_true, if_false]
    exact semverParseBuild_serialize major minor patch [] build hbuild
  | cons p ps =>
    unfold semverParsePre
    have hhead : ((serializeIds '-' (p :: ps)
        ++ serializeIds '+' build).head? == some '-') = true := by
      simp [serializeIds]
    rw [if_pos hhead]
    have hSPre_chars : ∀ c ∈ serializeIds '-' (p :: ps), (c != '+') = true :=
      serializeIds_no_plus (p :: ps) '-' (by decide)
        (fun i hi => (hpre i hi).2)
    have htake : (serializeIds '-' (p :: ps)
        ++ serializeIds '+' build).takeWhile (fun c => c != '+')
        = serializeIds '-' (p :: ps) := by
      cases build with
      | nil =>
        simp only [serializeIds, List.append_nil]
        exact takeWhile_all _ (serializeIds '-' (p :: ps)) hSPre_chars
      | cons b bs =>
        show (serializeIds '-' (p :: ps)
            ++ '+' :: (b ++ serializeIds '.' bs)).takeWhile
            (fun c => c != '+') = _
        exact takeWhile_all_append _ _ '+' _ hSPre_chars (by decide)
    rw [htake]
    simp only [List.drop_left,
      parseDotIds_serialize validPrereleaseId (p :: ps) '-' hpre,
      List.isEmpty_cons, Bool.false_eq_true, if_false]
    exact semverParseBuild_serialize major minor patch (p :: ps) build hbuild

/-!
### The serialized core `MAJOR.MINOR.PATCH` and its parse
-/

/-- The decimal core written by `to_string`:
`major`, a dot, `minor`, a dot, `patch`. -/
def coreStr (M m p : Nat) : List Char :=
  natDigits M ++ '.' :: (natDigits m ++ '.' :: natDigits p)

theorem coreStr_chars (M m p : Nat) :
    ∀ c ∈ coreStr M m p, (c != '+' && c != '-') = true := by
  intro c hc
  simp only [coreStr, List.mem_append, List.mem_cons] at hc
  rcases hc with h | h | h | h | h
  · exact digit_ne_pm (natDigits_all_digit M c h)
  · subst h; decide
  · exact digit_ne_pm (natDigits_all_digit m c h)
  · subst h; decide
  · exact digit_ne_pm (natDigits_all_digit p c h)

theorem coreStr_count (M m p : Nat) :
    (coreStr M m p).count ('.') = 2 := by
  have hM := List.count_eq_zero.mpr (digit_notMem_dot (natDigits_all_digit M))
  have hm := List.count_eq_zero.mpr (digit_notMem_dot (natDigits_all_digit m))
  have hp := List.count_eq_zero.mpr (digit_notMem_dot (natDigits_all_digit p))
  simp [coreStr, List.count_append, List.count_cons, hM, hm, hp]

theorem coreStr_major (M m p : Nat) :
    (coreStr M m p).takeWhile (fun c => c != '.') = natDigits M :=
  takeWhile_all_append _ (natDigits M) '.' _
    (fun c hc => digit_ne_dot (natDigits_all_digit M c hc)) (by decide)

theorem coreStr_after (M m p : Nat) :
    (coreStr M m p).drop ((natDigits M).length + 1)
      = natDigits m ++ '.' :: natDigits p :=
  drop_len_append_cons (natDigits M) '.' _

theorem coreStr_minor (m p : Nat) :
    (natDigits m ++ '.' :: natDigits p).takeWhile (fun c => c != '.')
      = natDigits m :=
  takeWhile_all_append _ (natDigits m) '.' _
    (fun c hc => digit_ne_dot (natDigits_all_digit m c hc)) (by decide)

theorem coreStr_patch (m p : Nat) :
    (natDigits m ++ '.' :: natDigits p).drop ((natDigits m).length + 1)
      = natDigits p :=
  drop_len_append_cons (natDigits m) '.' _

theorem coreStr_append_ne_nil (M m p : Nat) (X : List Char) :
    (coreStr M m p ++ X).isEmpty = false := by
  unfold coreStr
  cases h : natDigits M with
  | nil => exact absurd h (natDigits_ne_nil M)
  | cons c t => rfl

/-- Serialized strings stop the core scan exactly at the core. -/
theorem serialized_takeWhile_core (M m p : Nat) (pre build : List Ident)
    (hpre : ∀ id ∈ pre, isValidIdentifier id = true) :
    (coreStr M m p ++ (serializeIds '-' pre ++ serializeIds '+' build)).takeWhile
        (fun c => c != '+' && c != '-') = coreStr M m p := by
  cases pre with
  | cons q qs =>
    exact takeWhile_all_append _ _ '-' _ (coreStr_chars M m p) (by decide)
  | nil =>
    cases build with
    | nil =>
      show (coreStr M m p ++ ([] : List Char)).takeWhile _ = _
      rw [List.append_nil]
      exact takeWhile_all _ _ (coreStr_chars M m p)
    | cons b bs =>
      exact takeWhile_all_append _ _ '+' _ (coreStr_chars M m p) (by decide)

theorem strtoul_natDigits {n : Nat} (h : n < ULONG_MAX) :
    strtoulModel (natDigits n) = n := by
  unfold strtoulModel
  rw [digitsToNat_natDigits]
  exact Nat.min_eq_left h.le

/-- `Semver::parse` on the exact string `to_string` renders (core within the
buffer) recovers every component. -/
theorem semverParse_serialize (M m p : Nat) (pre build : List Ident)
    (hpre : ∀ id ∈ pre, validPrereleaseId id = true
      ∧ isValidIdentifier id = true)
    (hbuild : ∀ id ∈ build, isValidIdentifier id = true)
    (hM : M < ULONG_MAX) (hm : m < ULONG_MAX) (hp : p < ULONG_MAX) :
    semverParse
        (coreStr M m p ++ (serializeIds '-' pre ++ serializeIds '+' build))
      = some ⟨M, m, p, pre, build, true⟩ := by
  have hempty := coreStr_append_ne_nil M m p
    (serializeIds '-' pre ++ serializeIds '+' build)
  have htake := serialized_takeWhile_core M m p pre build
    (fun id hid => (hpre id hid).2)
  have hdrop : (coreStr M m p
      ++ (serializeIds '-' pre ++ serializeIds '+' build)).drop
        (coreStr M m p).length
      = serializeIds '-' pre ++ serializeIds '+' build := List.drop_left _ _
  unfold semverParse
  rw [hempty]
  simp only [Bool.false_eq_true, if_false, htake, hdrop, coreStr_count,
    coreStr_major, coreStr_after, coreStr_minor, coreStr_patch,
    isNumeric_natDigits, natDigits_guard, strtoul_natDigits hM,
    strtoul_natDigits hm, strtoul_natDigits hp]
  rw [if_neg (by omega), if_neg (by decide), if_neg (by decide),
    if_neg (by
      simp only [Bool.or_eq_true, beq_iff_eq]
      intro hcon
      rcases hcon with (hcon | hcon) | hcon
      · exact absurd hcon (Nat.ne_of_lt hM)
      · exact absurd hcon (Nat.ne_of_lt hm)
      · exact absurd hcon (Nat.ne_of_lt hp))]
  exact semverParsePre_serialize M m p pre build hpre hbuild

theorem natDigits_length_le {n k : Nat} (h : n < 10 ^ k) (hk : 1 ≤ k) :
    (natDigits n).length ≤ k := by
  by_cases h10 : n < 10
  · have hone : natDigits n = [Char.ofNat (48 + n)] := by
      simp [natDigits, natDigitsAux, h10]
    rw [hone]
    simpa using hk
  · cases hd : natDigits n with
    | nil => exact absurd hd (natDigits_ne_nil n)
    | cons c t =>
      have hall := natDigits_all_digit n
      rw [hd] at hall
      have hc : c ≠ '0' := by
        have hh := natDigits_headD n (by omega)
        rw [hd] at hh
        simpa using hh
      have hge := digitsToNat_ge c t (hall c (by simp)) hc
      have hval : digitsToNat (c :: t) = n := by
        have hv := digitsToNat_natDigits n
        rw [hd] at hv
        exact hv
      rw [hval] at hge
      have hlt : t.length < k := by
        by_contra hcon
        push_neg at hcon
        have hpow : (10 : Nat) ^ k ≤ 10 ^ t.length :=
          Nat.pow_le_pow_right (by omega) hcon
        omega
      simp only [List.length_cons]
      omega

/-- For a valid version whose rendered core fits the 33-byte `snprintf`
buffer, `to_string` produces exactly core, pre-release, build sections. -/
theorem to_string_eq_coreStr (v : Semver) (hvalid : v.valid = true)
    (hlen : (natDigits v.major).length + (natDigits v.minor).length
        + (natDigits v.patch).length + 2 ≤ 32) :
    Semver.to_string v
      = coreStr v.major v.minor v.patch
        ++ (serializeIds '-' v.prerelease
          ++ serializeIds '+' v.build_metadata) := by
  unfold Semver.to_string
  rw [hvalid]
  have hlen32 : (natDigits v.major ++ '.' :: (natDigits v.minor
      ++ '.' :: natDigits v.patch)).length ≤ 32 := by
    simp only [List.length_append, List.length_cons]
    omega
  simp only [Bool.not_true, Bool.false_eq_true, if_false, coreStr,
    List.append_assoc, List.cons_append,
    List.take_of_length_le hlen32]

/-- A core component whose digits read back as `ULONG_MAX` makes the whole
parse fail: `strtoul` saturates there and `parse` rejects the saturated
value. -/
theorem semverParse_ulongmax (m p : Nat) (pre build : List Ident)
    (hpre : ∀ id ∈ pre, isValidIdentifier id = true) :
    semverParse (coreStr ULONG_MAX m p
        ++ (serializeIds '-' pre ++ serializeIds '+' build)) = none := by
  have hempty := coreStr_append_ne_nil ULONG_MAX m p
    (serializeIds '-' pre ++ serializeIds '+' build)
  have htake := serialized_takeWhile_core ULONG_MAX m p pre build hpre
  have hdrop : (coreStr ULONG_MAX m p
      ++ (serializeIds '-' pre ++ serializeIds '+' build)).drop
        (coreStr ULONG_MAX m p).length
      = serializeIds '-' pre ++ serializeIds '+' build := List.drop_left _ _
  have hsat : strtoulModel (natDigits ULONG_MAX) = ULONG_MAX := by
    unfold strtoulModel
    rw [digitsToNat_natDigits]
    exact Nat.min_self _
  unfold semverParse
  rw [hempty]
  simp only [Bool.false_eq_true, if_false, htake, hdrop, coreStr_count,
    coreStr_major, coreStr_after, coreStr_minor, coreStr_patch,
    isNumeric_natDigits, natDigits_guard, hsat]
  rw [if_neg (by omega), if_neg (by decide), if_neg (by decide),
    if_pos (by simp)]

/-- C8 counterexample: `from_components(ULONG_MAX, 0, 0, {}, {})` is a valid
`Semver` (the components are accepted unchecked), but parsing its rendering
back fails — `strtoul` saturates the 20-digit major at `ULONG_MAX` and
`parse` rejects exactly that value — so `from_string(to_string(v))` is the
default invalid version, not `v`. -/
theorem semver_roundtrip_counterexample :
    (Semver.from_components ULONG_MAX 0 0 [] []).valid = true ∧
      Semver.from_string
          (Semver.to_string (Semver.from_components ULONG_MAX 0 0 [] []))
        ≠ Semver.from_components ULONG_MAX 0 0 [] [] := by
  have hcomp : Semver.from_components ULONG_MAX 0 0 [] []
      = ⟨ULONG_MAX, 0, 0, [], [], true⟩ := rfl
  rw [hcomp]
  refine ⟨rfl, ?_⟩
  have hlenM : (natDigits ULONG_MAX).length ≤ 20 :=
    natDigits_length_le (by norm_num [ULONG_MAX]) (by omega)
  have hcore := to_string_eq_coreStr ⟨ULONG_MAX, 0, 0, [], [], true⟩ rfl
    (by
      have h0 : (natDigits 0).length = 1 := rfl
      simp only [h0]
      omega)
  rw [hcore]
  show Semver.from_string (coreStr ULONG_MAX 0 0
      ++ (serializeIds '-' [] ++ serializeIds '+' []))
    ≠ ⟨ULONG_MAX, 0, 0, [], [], true⟩
  unfold Semver.from_string
  rw [semverParse_ulongmax 0 0 [] []
    (fun id hid => absurd hid (List.not_mem_nil id))]
  intro hcon
  have hv := congrArg Semver.valid hcon
  simp [Semver.invalid] at hv

/-- C8: round-trip of serialization.  For every valid `Semver` whose
identifier lists satisfy the class's own validation, whose core numbers are
below `ULONG_MAX` (where `strtoul` saturates and `parse` rejects), and whose
rendered core fits the 33-byte `snprintf` buffer, `from_string(to_string(v))`
recovers `v` exactly: same major, minor, patch, pre-release identifiers and
build metadata, and still valid. -/
theorem semver_roundtrip (v : Semver)
    (hvalid : v.valid = true)
    (hpre : ∀ id ∈ v.prerelease, validPrereleaseId id = true)
    (hbuild : ∀ id ∈ v.build_metadata, isValidIdentifier id = true)
    (hM : v.major < ULONG_MAX) (hm : v.minor < ULONG_MAX)
    (hp : v.patch < ULONG_MAX)
    (hlen : (natDigits v.major).length + (natDigits v.minor).length
        + (natDigits v.patch).length + 2 ≤ 32) :
    Semver.from_string (Semver.to_string v) = v := by
  have hpre2 : ∀ id ∈ v.prerelease, validPrereleaseId id = true
      ∧ isValidIdentifier id = true := by
    intro id hid
    refine ⟨hpre id hid, ?_⟩
    have h := hpre id hid
    simp only [validPrereleaseId, Bool.and_eq_true] at h
    exact h.1
  rw [to_string_eq_coreStr v hvalid hlen]
  unfold Semver.from_string
  rw [semverParse_serialize v.major v.minor v.patch v.prerelease
    v.build_metadata hpre2 hbuild hM hm hp]
  show (⟨v.major, v.minor, v.patch, v.prerelease, v.build_metadata, true⟩
    : Semver) = v
  rw [← hvalid]

/-- Witness for `semver_roundtrip`: the version `1.2.3-a+b` round-trips. -/
theorem semver_roundtrip_witness :
    Semver.from_string
        (Semver.to_string ⟨1, 2, 3, [['a']], [['b']], true⟩)
      = ⟨1, 2, 3, [['a']], [['b']], true⟩ :=
  semver_roundtrip ⟨1, 2, 3, [['a']], [['b']], true⟩ rfl
    (by decide) (by decide) (by decide) (by decide) (by decide) (by decide)

/-!
### SemVer 2.0.0 precedence as the spec states it, and its refinement
-/

/-- Spec-modelled (spec §3.2) comparison of two pre-release identifiers:
numeric identifiers compare numerically, numeric sorts before alphanumeric,
alphanumeric identifiers compare lexically. -/
def specIdentLt (l r : Ident) : Bool :=
  if isNumeric l && isNumeric r then decide (digitsToNat l < digitsToNat r)
  else if isNumeric l then true
  else if isNumeric r then false
  else charListLt l r

/-- Spec-modelled comparison of pre-release identifier lists: element-wise,
the first differing identifier decides, and on prefix-equality the shorter
list sorts first. -/
def specPreLt : List Ident → List Ident → Bool
  | [], [] => false
  | [], _ :: _ => true
  | _ :: _, [] => false
  | l :: ls, r :: rs => if l = r then specPreLt ls rs else specIdentLt l r

/-- Spec-modelled (spec §3.2) precedence: core numerically, a pre-release
sorts before the bare core, then the identifier lists. -/
def specSemverLt (a b : Semver) : Bool :=
  if a.major ≠ b.major then decide (a.major < b.major)
  else if a.minor ≠ b.minor then decide (a.minor < b.minor)
  else if a.patch ≠ b.patch then decide (a.patch < b.patch)
  else if a.prerelease.isEmpty then false
  else if b.prerelease.isEmpty then true
  else specPreLt a.prerelease b.prerelease

theorem charList_map_inj {l r : List Char}
    (h : l.map Char.toNat = r.map Char.toNat) : l = r :=
  List.map_injective_iff.mpr (fun _ _ hab => char_toNat_inj hab) h

theorem charListLt_ne {l r : Ident} (h : charListLt l r = true) : l ≠ r := by
  intro heq
  subst heq
  simp [charListLt, bytesLt_irrefl] at h

theorem charListLt_asymm {l r : Ident} (h : charListLt l r = true) :
    charListLt r l = false := bytesLt_asymm h

theorem charListLt_antisymm {l r : Ident} (h1 : charListLt l r = false)
    (h2 : charListLt r l = false) : l = r :=
  charList_map_inj (bytesLt_antisymm h1 h2)

/-- A numeric pre-release identifier that passed the parse-time validation
has no leading zero: its digit string is canonical. -/
theorem validPre_numeric_canon {id : Ident}
    (hv : validPrereleaseId id = true) (hn : isNumeric id = true) :
    CanonDigits id := by
  have hn2 := hn
  simp only [isNumeric, Bool.and_eq_true, Bool.not_eq_true',
    List.all_eq_true] at hn2
  have hlz : leadingZeroNumeric id = false := by
    have h := hv
    simp only [validPrereleaseId, Bool.and_eq_true, Bool.not_eq_true'] at h
    exact h.2
  refine ⟨?_, hn2.2, ?_⟩
  · intro heq
    subst heq
    simp at hn2
  · intro hlen hhead
    unfold leadingZeroNumeric at hlz
    rw [hn, decide_eq_true hlen, hhead] at hlz
    simp at hlz

/-- The element-wise loop of `compare_prerelease` returns (does not throw)
and reports "less" exactly when the spec's list comparison does, provided
every identifier passed the parse-time validation (so equal numeric values
force equal strings) and every numeric identifier's value is representable
in `unsigned long` (so `std::stoul` does not throw). -/
theorem cmpIdsLoop_spec :
    ∀ ls rs : List Ident,
      (∀ id ∈ ls, validPrereleaseId id = true
        ∧ (isNumeric id = true → digitsToNat id ≤ ULONG_MAX)) →
      (∀ id ∈ rs, validPrereleaseId id = true
        ∧ (isNumeric id = true → digitsToNat id ≤ ULONG_MAX)) →
      ∃ k : Int, cmpIdsLoop ls rs = some k
        ∧ (k < 0 ↔ specPreLt ls rs = true) := by
  intro ls
  induction ls with
  | nil =>
    intro rs _ _
    cases rs with
    | nil => exact ⟨0, rfl, by norm_num [specPreLt]⟩
    | cons r rr => exact ⟨-1, rfl, by norm_num [specPreLt]⟩
  | cons l ll ih =>
    intro rs hls hrs
    cases rs with
    | nil => exact ⟨1, rfl, by norm_num [specPreLt]⟩
    | cons r rr =>
      obtain ⟨hl, hbl⟩ := hls l (by simp)
      obtain ⟨hr, hbr⟩ := hrs r (by simp)
      obtain ⟨k, hk, hiff⟩ := ih rr (fun i hi => hls i (by simp [hi]))
        (fun i hi => hrs i (by simp [hi]))
      cases hln : isNumeric l <;> cases hrn : isNumeric r
      · -- both alphanumeric
        rcases hcl : charListLt l r with _ | _
        · rcases hcr : charListLt r l with _ | _
          · have heq : l = r := charListLt_antisymm hcl hcr
            subst heq
            have hstep : cmpIdsLoop (l :: ll) (l :: rr)
                = cmpIdsLoop ll rr := by
              simp [cmpIdsLoop, hln, hcl]
            have hspec : specPreLt (l :: ll) (l :: rr)
                = specPreLt ll rr := by
              simp [specPreLt]
            exact ⟨k, by rw [hstep]; exact hk, by rw [hspec]; exact hiff⟩
          · have hne : l ≠ r := fun he => charListLt_ne hcr he.symm
            have hstep : cmpIdsLoop (l :: ll) (r :: rr) = some 1 := by
              simp [cmpIdsLoop, hln, hrn, hcl, hcr]
            have hspec : specPreLt (l :: ll) (r :: rr) = false := by
              simp [specPreLt, specIdentLt, hln, hrn, hne, hcl]
            exact ⟨1, hstep, by norm_num [hspec]⟩
        · have hne : l ≠ r := charListLt_ne hcl
          have hstep : cmpIdsLoop (l :: ll) (r :: rr) = some (-1) := by
            simp [cmpIdsLoop, hln, hrn, hcl]
          have hspec : specPreLt (l :: ll) (r :: rr) = true := by
            simp [specPreLt, specIdentLt, hln, hrn, hne, hcl]
          exact ⟨-1, hstep, by norm_num [hspec]⟩
      · -- l alphanumeric, r numeric
        have hne : l ≠ r := by
          intro he
          rw [he, hrn] at hln
          exact absurd hln (by decide)
        have hstep : cmpIdsLoop (l :: ll) (r :: rr) = some 1 := by
          simp [cmpIdsLoop, hln, hrn]
        have hspec : specPreLt (l :: ll) (r :: rr) = false := by
          simp [specPreLt, specIdentLt, hln, hrn, hne]
        exact ⟨1, hstep, by norm_num [hspec]⟩
      · -- l numeric, r alphanumeric
        have hne : l ≠ r := by
          intro he
          rw [he, hrn] at hln
          exact absurd hln (by decide)
        have hstep : cmpIdsLoop (l :: ll) (r :: rr) = some (-1) := by
          simp [cmpIdsLoop, hln, hrn]
        have hspec : specPreLt (l :: ll) (r :: rr) = true := by
          simp [specPreLt, specIdentLt, hln, hrn, hne]
        exact ⟨-1, hstep, by norm_num [hspec]⟩
      · -- both numeric: within the bound, `std::stoul` returns the value
        have hsl : stoulModel l = some (digitsToNat l) := by
          simp [stoulModel, hbl hln]
        have hsr : stoulModel r = some (digitsToNat r) := by
          simp [stoulModel, hbr hrn]
        rcases Nat.lt_trichotomy (digitsToNat l) (digitsToNat r)
          with hv | hv | hv
        · have hne : l ≠ r := by intro he; rw [he] at hv; omega
          have hstep : cmpIdsLoop (l :: ll) (r :: rr) = some (-1) := by
            simp [cmpIdsLoop, hln, hrn, hsl, hsr, hv]
          have hspec : specPreLt (l :: ll) (r :: rr) = true := by
            simp [specPreLt, specIdentLt, hln, hrn, hne, hv]
          exact ⟨-1, hstep, by norm_num [hspec]⟩
        · have heq : l = r := canonDigits_inj
            (validPre_numeric_canon hl hln) (validPre_numeric_canon hr hrn)
            hv
          subst heq
          have hstep : cmpIdsLoop (l :: ll) (l :: rr)
              = cmpIdsLoop ll rr := by
            simp [cmpIdsLoop, hln, hsl]
          have hspec : specPreLt (l :: ll) (l :: rr)
              = specPreLt ll rr := by
            simp [specPreLt]
          exact ⟨k, by rw [hstep]; exact hk, by rw [hspec]; exact hiff⟩
        · have hne : l ≠ r := by intro he; rw [he] at hv; omega
          have hnv : ¬ (digitsToNat l < digitsToNat r) := by omega
          have hstep : cmpIdsLoop (l :: ll) (r :: rr) = some 1 := by
            simp [cmpIdsLoop, hln, hrn, hsl, hsr, hv, hnv]
          have hspec : specPreLt (l :: ll) (r :: rr) = false := by
            simp [specPreLt, specIdentLt, hln, hrn, hne, hnv]
          exact ⟨1, hstep, by norm_num [hspec]⟩

/-- The code's `operator<` returns (no `std::out_of_range`) and agrees with
the spec's precedence on every pair of valid versions whose pre-release
identifiers passed the parse-time validation and whose numeric pre-release
identifiers are representable in `unsigned long`; beyond that bound the
operator throws instead of ordering. -/
theorem semverLt_refines_spec (a b : Semver)
    (ha : a.valid = true) (hb : b.valid = true)
    (hpa : ∀ id ∈ a.prerelease, validPrereleaseId id = true
      ∧ (isNumeric id = true → digitsToNat id ≤ ULONG_MAX))
    (hpb : ∀ id ∈ b.prerelease, validPrereleaseId id = true
      ∧ (isNumeric id = true → digitsToNat id ≤ ULONG_MAX)) :
    Semver.lt a b = some (specSemverLt a b) := by
  unfold Semver.lt specSemverLt
  rw [ha, hb]
  simp only [Bool.not_true, Bool.or_self, Bool.false_eq_true, if_false]
  by_cases hmaj : a.major = b.major
  · have h1 : ¬ (a.major ≠ b.major) := fun hc => hc hmaj
    rw [if_neg h1, if_neg h1]
    by_cases hmin : a.minor = b.minor
    · have h2 : ¬ (a.minor ≠ b.minor) := fun hc => hc hmin
      rw [if_neg h2, if_neg h2]
      by_cases hpat : a.patch = b.patch
      · have h3 : ¬ (a.patch ≠ b.patch) := fun hc => hc hpat
        rw [if_neg h3, if_neg h3]
        unfold Semver.compare_prerelease
        cases hae : a.prerelease.isEmpty
          <;> cases hbe : b.prerelease.isEmpty
        · -- both non-empty: the element-wise loop vs the spec's comparison
          simp only [Bool.false_and, Bool.and_false, Bool.and_self,
            Bool.false_eq_true, if_false]
          obtain ⟨k, hk, hiff⟩ := cmpIdsLoop_spec a.prerelease
            b.prerelease hpa hpb
          rw [hk]
          rcases Bool.eq_false_or_eq_true
            (specPreLt a.prerelease b.prerelease) with hsp | hsp
          · rw [hsp]
            exact congrArg some (decide_eq_true (hiff.mpr hsp))
          · rw [hsp]
            exact congrArg some (decide_eq_false (fun hc =>
              absurd (hiff.mp hc) (by simp [hsp])))
        · -- a non-empty, b empty: pre-release sorts first
          simp
        · -- a empty, b non-empty
          simp
        · -- both empty
          simp
      · rw [if_pos hpat, if_pos hpat]
    · rw [if_pos hmin, if_pos hmin]
  · rw [if_pos hmaj, if_pos hmaj]

/-- C7 counterexample: precedence does NOT follow strict SemVer 2.0.0 on
every valid version.  `parse` bounds only the core, so
`1.0.0-99999999999999999999999` is valid, but comparing it calls
`std::stoul` on a numeric pre-release identifier above `ULONG_MAX`, which
throws `std::out_of_range` (`none`) where the spec orders the pair. -/
theorem semver_precedence_overflow_counterexample :
    (Semver.from_string
        (("1.0.0-99999999999999999999999").toList)).valid = true
    ∧ (Semver.from_string (("1.0.0-2").toList)).valid = true
    ∧ Semver.lt
        (Semver.from_string (("1.0.0-99999999999999999999999").toList))
        (Semver.from_string (("1.0.0-2").toList)) = none
    ∧ specSemverLt
        (Semver.from_string (("1.0.0-99999999999999999999999").toList))
        (Semver.from_string (("1.0.0-2").toList)) = false := by
  refine ⟨by decide, by decide, by decide, by decide⟩

/-- C7 (amended): parsing and precedence follow strict SemVer 2.0.0
wherever the comparison returns.  A leading-zero core component fails to
parse; on all valid versions with validated pre-release identifiers whose
numeric pre-release identifiers are at most `ULONG_MAX` (beyond that
`std::stoul` throws instead of ordering), `operator<` returns exactly the
spec's precedence (core numerically, pre-release before none, identifiers
element-wise with numeric before alphanumeric, prefix lists first); build
metadata affects neither `operator==` nor `operator<`; the spec's
eight-version chain is pairwise increasing and
`1.0.0+build1 == 1.0.0+build2`. -/
theorem semver_precedence_semver2 :
    semverParse (("01.2.3").toList) = none
    ∧ (∀ a b : Semver, a.valid = true → b.valid = true →
        (∀ id ∈ a.prerelease, validPrereleaseId id = true
          ∧ (isNumeric id = true → digitsToNat id ≤ ULONG_MAX)) →
        (∀ id ∈ b.prerelease, validPrereleaseId id = true
          ∧ (isNumeric id = true → digitsToNat id ≤ ULONG_MAX)) →
        Semver.lt a b = some (specSemverLt a b))
    ∧ (∀ a b : Semver, ∀ bm : List Ident,
        Semver.eq a { b with build_metadata := bm } = Semver.eq a b
        ∧ Semver.lt a { b with build_metadata := bm } = Semver.lt a b
        ∧ Semver.eq { a with build_metadata := bm } b = Semver.eq a b
        ∧ Semver.lt { a with build_metadata := bm } b = Semver.lt a b)
    ∧ List.Pairwise (fun x y => Semver.lt x y = some true)
        [Semver.from_string (("1.0.0-alpha").toList),
         Semver.from_string (("1.0.0-alpha.1").toList),
         Semver.from_string (("1.0.0-alpha.beta").toList),
         Semver.from_string (("1.0.0-beta").toList),
         Semver.from_string (("1.0.0-beta.2").toList),
         Semver.from_string (("1.0.0-beta.11").toList),
         Semver.from_string (("1.0.0-rc.1").toList),
         Semver.from_string (("1.0.0").toList)]
    ∧ Semver.eq (Semver.from_string (("1.0.0+build1").toList))
        (Semver.from_string (("1.0.0+build2").toList)) = true := by
  refine ⟨by decide, ?_, ?_, by decide, by decide⟩
  · exact fun a b ha hb hpa hpb => semverLt_refines_spec a b ha hb hpa hpb
  · exact fun a b bm => ⟨rfl, rfl, rfl, rfl⟩

/-- Witness for `semver_precedence_semver2`: the code's `1.0.0-rc < 1.0.0`
agrees with the spec's precedence at a concrete pair. -/
theorem semver_precedence_semver2_witness :
    Semver.lt ⟨1, 0, 0, [['r', 'c']], [], true⟩ ⟨1, 0, 0, [], [], true⟩
      = some (specSemverLt ⟨1, 0, 0, [['r', 'c']], [], true⟩
          ⟨1, 0, 0, [], [], true⟩) :=
  semver_precedence_semver2.2.1 ⟨1, 0, 0, [['r', 'c']], [], true⟩
    ⟨1, 0, 0, [], [], true⟩ rfl rfl (by decide) (by decide)

/-- C9: comparisons touching an invalid `Semver` are all-false rather than
an order: whenever either side is invalid, `==` and `<` return false (no
`std::stoul` is reached, so no exception); in particular an invalid
version is not equal to itself; and because `operator>` is the negation of
`operator<=`, both `a > b` and `b > a` return true for two invalid
versions. -/
theorem semver_invalid_comparisons :
    (∀ a b : Semver, a.valid = false ∨ b.valid = false →
        Semver.eq a b = false ∧ Semver.lt a b = some false)
    ∧ (∀ a : Semver, a.valid = false → Semver.eq a a = false)
    ∧ (∀ a b : Semver, a.valid = false → b.valid = false →
        Semver.gt a b = some true ∧ Semver.gt b a = some true) := by
  have hbase : ∀ a b : Semver, a.valid = false ∨ b.valid = false →
      Semver.eq a b = false ∧ Semver.lt a b = some false := by
    intro a b h
    constructor
    · unfold Semver.eq
      rcases h with h | h <;> simp [h]
    · unfold Semver.lt
      rcases h with h | h <;> simp [h]
  refine ⟨hbase, fun a ha => (hbase a a (Or.inl ha)).1, ?_⟩
  intro a b ha hb
  constructor
  · unfold Semver.gt Semver.le
    rw [(hbase a b (Or.inl ha)).2, (hbase a b (Or.inl ha)).1]
    rfl
  · unfold Semver.gt Semver.le
    rw [(hbase b a (Or.inl hb)).2, (hbase b a (Or.inl hb)).1]
    rfl

/-- Witness for `semver_invalid_comparisons`: the default-constructed
invalid version is unequal to itself and `>` itself. -/
theorem semver_invalid_comparisons_witness :
    Semver.eq Semver.invalid Semver.invalid = false
    ∧ Semver.gt Semver.invalid Semver.invalid = some true :=
  ⟨semver_invalid_comparisons.2.1 Semver.invalid rfl,
   (semver_invalid_comparisons.2.2 Semver.invalid Semver.invalid
     rfl rfl).1⟩

/-!
### Uninstall refusal (`remove_extension_from_victionary`)

Entries carry the fields the uninstall path reads; versions are the plain
strings the system tables store.  `use_count` of a stored `shared_ptr` is
runtime state, modelled as a function from the stored key.
-/

/-- `ColumnEntry` (custom_columns.h): key components and the extension
reference. -/
structure ColumnEntry where
  db_name : List Char
  table_name : List Char
  column_name : List Char
  extension_name : List Char
  extension_version : List Char
  type_name : List Char
deriving DecidableEq, Repr

/-- `ExtensionEntry` (extensions.h): the name (from the key), the committed
version, and the normalized map key `MarkForDeletion` receives. -/
structure ExtensionEntry where
  extension_name : List Char
  extension_version : List Char
  key : Bytes
deriving DecidableEq, Repr

/-- The fields the uninstall path reads from a committed `TypeContext` or
`TypeDescriptor`: owner name/version, the type name used in the error
message, and the stored key. -/
structure TypeEntry where
  extension_name : List Char
  extension_version : List Char
  type_name : List Char
  key : Bytes
deriving DecidableEq, Repr

/-- A committed `ExtensionDescriptor`: the uninstall path only uses its
key (and hands its registration to the caller). -/
structure ExtDescEntry where
  key : Bytes
deriving DecidableEq, Repr

/-- The committed side of the Victionary as the uninstall path sees it
under the write guard; `ctx_use`/`desc_use` give each stored entry's
`shared_ptr::use_count`. -/
structure VicState where
  extensions : CommittedMap ExtensionEntry
  columns : List ColumnEntry
  type_contexts : List TypeEntry
  ctx_use : Bytes → Nat
  type_descriptors : List TypeEntry
  desc_use : Bytes → Nat
  extension_descriptors : CommittedMap ExtDescEntry

/-- The column condition of `check_for_columns_of_extension`: the column
references the entry's name at the entry's committed version. -/
def colMatches (ext : ExtensionEntry) (col : ColumnEntry) : Bool :=
  col.extension_name == ext.extension_name
    && col.extension_version == ext.extension_version

/-- The type condition of the use-count scans: the context/descriptor
belongs to the named extension at the looked-up committed version. -/
def typeMatches (arg_name ver : List Char) (t : TypeEntry) : Bool :=
  t.extension_name == arg_name && t.extension_version == ver

/-- The counting loop of `check_for_columns_of_extension` (sql_extension.cc
lines 279-286): remember the first match, count all of them. -/
def checkColumnsLoop (ext : ExtensionEntry) :
    List ColumnEntry → Nat → Option ColumnEntry
      → Nat × Option ColumnEntry
  | [], count, first => (count, first)
  | col :: rest, count, first =>
    if colMatches ext col then
      checkColumnsLoop ext rest (count + 1)
        (if count = 0 then some col else first)
    else checkColumnsLoop ext rest count first

/-- Model of `check_for_columns_of_extension`: `some (first, count)` when
the function reports the error naming `first` and `count`, `none` when it
lets the uninstall proceed. -/
def check_for_columns_of_extension (ext : ExtensionEntry)
    (all_columns : List ColumnEntry) : Option (ColumnEntry × Nat) :=
  match checkColumnsLoop ext all_columns 0 none with
  | (count, some first) => some (first, count)
  | (_, none) => none

/-- The use-count scans (lines 327-357): the first committed entry of the
extension at the looked-up version whose strong count exceeds 1, reported
by its type name. -/
def findUsedType (arg_name ver : List Char) (ts : List TypeEntry)
    (use : Bytes → Nat) : Option (List Char) :=
  (ts.find? (fun t => typeMatches arg_name ver t
    && decide (1 < use t.key))).map TypeEntry.type_name

/-- Why `remove_extension_from_victionary` returned `true` (error). -/
inductive UninstallError where
  | not_installed
  | columns_depend (first : ColumnEntry) (count : Nat)
  | type_in_use (type_name : List Char)
deriving DecidableEq, Repr

/-- What the success path of `remove_extension_from_victionary` stages, in
staging order: matching TypeContexts, matching TypeDescriptors, the
extension entry, and the extension descriptor when present. -/
structure UninstallStaged where
  deleted_contexts : List Bytes
  deleted_descriptors : List Bytes
  deleted_extension : Bytes
  deleted_ext_descriptor : Option Bytes
deriving DecidableEq, Repr

/-- Model of `remove_extension_from_victionary` (sql_extension.cc lines
304-386).  `normKey` is `ExtensionKey`'s normalization and `descKey` is
`ExtensionDescriptorKey`; every check happens before anything is staged,
exactly as in the source. -/
def remove_extension_from_victionary (normKey : List Char → Bytes)
    (descKey : List Char → List Char → Bytes) (st : VicState)
    (extension_name : List Char) :
    Except UninstallError UninstallStaged :=
  match SystemTableMap.get_committed st.extensions
      (normKey extension_name) with
  | none => .error .not_installed
  | some ext =>
    match check_for_columns_of_extension ext st.columns with
    | some (first, count) => .error (.columns_depend first count)
    | none =>
      match findUsedType extension_name ext.extension_version
          st.type_contexts st.ctx_use with
      | some tn => .error (.type_in_use tn)
      | none =>
        match findUsedType extension_name ext.extension_version
            st.type_descriptors st.desc_use with
        | some tn => .error (.type_in_use tn)
        | none =>
          .ok ⟨(st.type_contexts.filter
              (typeMatches extension_name ext.extension_version)).map
                TypeEntry.key,
            (st.type_descriptors.filter
              (typeMatches extension_name ext.extension_version)).map
                TypeEntry.key,
            ext.key,
            (SystemTableMap.get_committed st.extension_descriptors
              (descKey extension_name ext.extension_version)).map
                ExtDescEntry.key⟩

/-- Did the uninstall path refuse (return `true` in the source)? -/
def uninstallRefused {α : Type} (r : Except UninstallError α) : Bool :=
  match r with
  | .error _ => true
  | .ok _ => false

theorem checkColumnsLoop_gt (ext : ExtensionEntry) :
    ∀ (cols : List ColumnEntry) (count : Nat) (first : Option ColumnEntry),
      0 < count →
      checkColumnsLoop ext cols count first
        = (count + (cols.filter (colMatches ext)).length, first) := by
  intro cols
  induction cols with
  | nil =>
    intro count first _
    simp [checkColumnsLoop]
  | cons c rest ih =>
    intro count first h
    by_cases hm : colMatches ext c = true
    · rw [show checkColumnsLoop ext (c :: rest) count first
          = checkColumnsLoop ext rest (count + 1)
            (if count = 0 then some c else first) from by
        simp [checkColumnsLoop, hm]]
      rw [if_neg (by omega), ih (count + 1) first (by omega)]
      simp only [List.filter_cons, hm, if_pos, List.length_cons,
        Prod.mk.injEq, and_true]
      omega
    · rw [show checkColumnsLoop ext (c :: rest) count first
          = checkColumnsLoop ext rest count first from by
        simp [checkColumnsLoop, hm]]
      rw [ih count first h]
      simp [List.filter_cons, hm]

theorem checkColumnsLoop_zero (ext : ExtensionEntry) :
    ∀ cols : List ColumnEntry,
      checkColumnsLoop ext cols 0 none
        = ((cols.filter (colMatches ext)).length,
           (cols.filter (colMatches ext)).head?) := by
  intro cols
  induction cols with
  | nil => rfl
  | cons c rest ih =>
    by_cases hm : colMatches ext c = true
    · rw [show checkColumnsLoop ext (c :: rest) 0 none
          = checkColumnsLoop ext rest 1 (some c) from by
        simp [checkColumnsLoop, hm]]
      rw [checkColumnsLoop_gt ext rest 1 (some c) (by omega)]
      simp [List.filter_cons, hm, Nat.add_comm]
    · rw [show checkColumnsLoop ext (c :: rest) 0 none
          = checkColumnsLoop ext rest 0 none from by
        simp [checkColumnsLoop, hm]]
      rw [ih]
      simp [List.filter_cons, hm]

/-- `check_for_columns_of_extension` reports the head of the matching
columns (in table order) together with how many match. -/
theorem check_columns_eq (ext : ExtensionEntry) (cols : List ColumnEntry) :
    check_for_columns_of_extension ext cols
      = match (cols.filter (colMatches ext)).head? with
        | some f => some (f, (cols.filter (colMatches ext)).length)
        | none => none := by
  unfold check_for_columns_of_extension
  rw [checkColumnsLoop_zero]
  cases (cols.filter (colMatches ext)).head? <;> rfl

theorem findUsedType_some {n v : List Char} {ts : List TypeEntry}
    {use : Bytes → Nat} {tn : List Char}
    (h : findUsedType n v ts use = some tn) :
    ∃ t ∈ ts, typeMatches n v t = true ∧ 1 < use t.key := by
  unfold findUsedType at h
  rcases hf : ts.find?
      (fun t => typeMatches n v t && decide (1 < use t.key)) with _ | t
  · rw [hf] at h
    simp at h
  · have hp := List.find?_some hf
    have hm := List.mem_of_find?_eq_some hf
    simp only [Bool.and_eq_true, decide_eq_true_eq] at hp
    exact ⟨t, hm, hp.1, hp.2⟩

theorem findUsedType_none {n v : List Char} {ts : List TypeEntry}
    {use : Bytes → Nat} (h : findUsedType n v ts use = none) :
    ∀ t ∈ ts, ¬ (typeMatches n v t = true ∧ 1 < use t.key) := by
  unfold findUsedType at h
  have hf : ts.find?
      (fun t => typeMatches n v t && decide (1 < use t.key)) = none := by
    rcases hff : ts.find?
        (fun t => typeMatches n v t && decide (1 < use t.key)) with _ | t
    · rfl
    · rw [hff] at h
      simp at h
  intro t ht hcon
  have hnone := List.find?_eq_none.mp hf t ht
  simp [hcon.1, hcon.2] at hnone

/-- For an uninstall whose statement spelling equals the stored display
name (`hname`), refusal is exactly: a committed column references the
entry's name at its committed version, or a committed TypeContext or
TypeDescriptor of the extension at that version has a strong reference
count above 1; every check precedes every staged deletion, and a column
refusal reports the first matching column (in table order) together with
the count of matching columns.  Without `hname` the equivalence fails: the
use-count scans compare the raw statement string case-sensitively while
the extension lookup is normalized. -/
theorem uninstall_refusal_iff (normKey : List Char → Bytes)
    (descKey : List Char → List Char → Bytes) (st : VicState)
    (name : List Char) (ext : ExtensionEntry)
    (hfound : SystemTableMap.get_committed st.extensions (normKey name)
      = some ext)
    (hname : ext.extension_name = name) :
    (uninstallRefused
        (remove_extension_from_victionary normKey descKey st name) = true
      ↔ ((∃ col ∈ st.columns, colMatches ext col = true)
        ∨ (∃ t ∈ st.type_contexts,
            typeMatches ext.extension_name ext.extension_version t = true
              ∧ 1 < st.ctx_use t.key)
        ∨ (∃ t ∈ st.type_descriptors,
            typeMatches ext.extension_name ext.extension_version t = true
              ∧ 1 < st.desc_use t.key)))
    ∧ (∀ first count,
        remove_extension_from_victionary normKey descKey st name
            = Except.error (UninstallError.columns_depend first count) →
          (st.columns.filter (colMatches ext)).head? = some first
            ∧ count = (st.columns.filter (colMatches ext)).length) := by
  subst hname
  rcases hh : (st.columns.filter (colMatches ext)).head? with _ | f
  · -- no dependent columns
    have hcc : check_for_columns_of_extension ext st.columns = none := by
      rw [check_columns_eq, hh]
    have hfilnil : st.columns.filter (colMatches ext) = [] :=
      List.head?_eq_none_iff.mp hh
    have hnocol := List.filter_eq_nil_iff.mp hfilnil
    rcases hf1 : findUsedType ext.extension_name ext.extension_version
        st.type_contexts st.ctx_use with _ | tn1
    · rcases hf2 : findUsedType ext.extension_name ext.extension_version
          st.type_descriptors st.desc_use with _ | tn2
      · -- nothing blocks: the uninstall proceeds
        have hrm : remove_extension_from_victionary normKey descKey st
            ext.extension_name = Except.ok
              ⟨(st.type_contexts.filter
                  (typeMatches ext.extension_name
                    ext.extension_version)).map TypeEntry.key,
                (st.type_descriptors.filter
                  (typeMatches ext.extension_name
                    ext.extension_version)).map TypeEntry.key,
                ext.key,
                (SystemTableMap.get_committed st.extension_descriptors
                  (descKey ext.extension_name
                    ext.extension_version)).map ExtDescEntry.key⟩ := by
          simp [remove_extension_from_victionary, hfound, hcc, hf1, hf2]
        rw [hrm]
        constructor
        · constructor
          · intro hcon
            exact absurd hcon (by simp [uninstallRefused])
          · intro hcon
            exfalso
            rcases hcon with ⟨col, hm, hmt⟩ | ⟨t, ht, h1, h2⟩
              | ⟨t, ht, h1, h2⟩
            · exact hnocol col hm hmt
            · exact findUsedType_none hf1 t ht ⟨h1, h2⟩
            · exact findUsedType_none hf2 t ht ⟨h1, h2⟩
        · intro first count heq
          simp at heq
      · -- a TypeDescriptor is still referenced
        have hrm : remove_extension_from_victionary normKey descKey st
            ext.extension_name
            = Except.error (UninstallError.type_in_use tn2) := by
          simp [remove_extension_from_victionary, hfound, hcc, hf1, hf2]
        rw [hrm]
        constructor
        · constructor
          · intro _
            exact Or.inr (Or.inr (findUsedType_some hf2))
          · intro _
            rfl
        · intro first count heq
          simp at heq
    · -- a TypeContext is still referenced
      have hrm : remove_extension_from_victionary normKey descKey st
          ext.extension_name
          = Except.error (UninstallError.type_in_use tn1) := by
        simp [remove_extension_from_victionary, hfound, hcc, hf1]
      rw [hrm]
      constructor
      · constructor
        · intro _
          exact Or.inr (Or.inl (findUsedType_some hf1))
        · intro _
          rfl
      · intro first count heq
        simp at heq
  · -- at least one dependent column: refuse, naming head and count
    have hcc : check_for_columns_of_extension ext st.columns
        = some (f, (st.columns.filter (colMatches ext)).length) := by
      rw [check_columns_eq, hh]
    have hfmem : f ∈ st.columns.filter (colMatches ext) := by
      rcases hfil : st.columns.filter (colMatches ext) with _ | ⟨a, tl⟩
      · rw [hfil] at hh
        cases hh
      · rw [hfil] at hh
        have ha : a = f := by simpa using hh
        rw [← ha]
        exact List.mem_cons_self a tl
    have hfc := List.mem_filter.mp hfmem
    have hrm : remove_extension_from_victionary normKey descKey st
        ext.extension_name
        = Except.error (UninstallError.columns_depend f
            (st.columns.filter (colMatches ext)).length) := by
      simp [remove_extension_from_victionary, hfound, hcc]
    rw [hrm]
    constructor
    · constructor
      · intro _
        exact Or.inl ⟨f, hfc.1, hfc.2⟩
      · intro _
        rfl
    · intro first count heq
      have h12 : f = first
          ∧ (st.columns.filter (colMatches ext)).length = count := by
        simpa using heq
      exact ⟨congrArg some h12.1, h12.2.symm⟩

/-- Witness for `uninstall_refusal_iff`: one committed extension with one
dependent column is refused. -/
theorem uninstall_refusal_iff_witness :
    uninstallRefused (remove_extension_from_victionary
      (fun n => n.map Char.toNat) (fun a b => (a ++ b).map Char.toNat)
      ⟨[([101], ⟨['e'], ['1'], [101]⟩)],
        [⟨['d'], ['t'], ['c'], ['e'], ['1'], ['T']⟩],
        [], fun _ => 0, [], fun _ => 0, []⟩
      ['e']) = true :=
  (uninstall_refusal_iff (fun n => n.map Char.toNat)
    (fun a b => (a ++ b).map Char.toNat)
    ⟨[([101], ⟨['e'], ['1'], [101]⟩)],
      [⟨['d'], ['t'], ['c'], ['e'], ['1'], ['T']⟩],
      [], fun _ => 0, [], fun _ => 0, []⟩
    ['e'] ⟨['e'], ['1'], [101]⟩ (by decide) rfl).1.mpr
    (Or.inl ⟨⟨['d'], ['t'], ['c'], ['e'], ['1'], ['T']⟩,
      by decide, by decide⟩)

/-- ASCII lowercasing on bytes: the case fold `normalize_extension_name`
(helpers.cc, `casedn` over the system charset) applies to extension names
before they key the extensions map. -/
def lowerNormKey (n : List Char) : Bytes :=
  (n.map Char.toNat).map (fun b => if 65 ≤ b && b ≤ 90 then b + 32 else b)

/-- An extension installed as `MyExt`: the display name keeps the
statement's spelling, the map key is the lowercased fold. -/
def myExtEntry : ExtensionEntry :=
  ⟨("MyExt").toList, ['1'], lowerNormKey (("MyExt").toList)⟩

/-- A committed TypeContext of `MyExt` (stored display name, the entry's
committed version). -/
def myExtContext : TypeEntry := ⟨("MyExt").toList, ['1'], ['V'], [7]⟩

/-- The Victionary with `MyExt` installed and its one TypeContext still
referenced elsewhere (use_count 2). -/
def caseMismatchState : VicState :=
  ⟨[(lowerNormKey (("MyExt").toList), myExtEntry)], [],
    [myExtContext], fun _ => 2, [], fun _ => 0, []⟩

/-- C4 (code bug): uninstall refusal is NOT the claimed iff.  The
extension lookup normalizes its key (`ExtensionKey` lowercases,
sql_extension.cc line 309), so `UNINSTALL EXTENSION myext` finds the
extension installed as `MyExt`; but the TypeContext/TypeDescriptor
use-count scans compare the raw statement string against the stored
display names case-sensitively (lines 330 and 346).  On one and the same
state, the case-matching spelling is refused while the case-differing
spelling proceeds, although a committed TypeContext of the extension at
its committed version has use_count above 1 (its staged deletion is
skipped as well). -/
theorem uninstall_case_mismatch_skips_inuse_check :
    uninstallRefused (remove_extension_from_victionary lowerNormKey
        (fun a b => (a ++ b).map Char.toNat) caseMismatchState
        (("MyExt").toList)) = true
    ∧ uninstallRefused (remove_extension_from_victionary lowerNormKey
        (fun a b => (a ++ b).map Char.toNat) caseMismatchState
        (("myext").toList)) = false
    ∧ (∃ t ∈ caseMismatchState.type_contexts,
        typeMatches myExtEntry.extension_name myExtEntry.extension_version
            t = true
          ∧ 1 < caseMismatchState.ctx_use t.key) :=
  ⟨by decide, by decide, myExtContext, by decide, by decide, by decide⟩

/-!
### TypeContext construction (`type_context.h`)
-/

/-- `TypeDescriptorKey`: type + extension + version. -/
structure TypeDescriptorKey where
  type_name : List Char
  extension_name : List Char
  extension_version : List Char
deriving DecidableEq, Repr

/-- The fields of a committed `TypeDescriptor` the context path reads. -/
structure TypeDescriptor where
  key : TypeDescriptorKey
deriving DecidableEq, Repr

/-- `TypeContextKey`: the descriptor key plus the normalized parameter
string. -/
structure TypeContextKey where
  descriptor_key : TypeDescriptorKey
  parameters : List Char
deriving DecidableEq, Repr

/-- `TypeContext`: a non-null descriptor plus its own key.  C++ hands out a
raw pointer; the model's field not being `Option` captures that a
constructed context always holds a descriptor, and the type has no
mutating interface, so the association is fixed at construction. -/
structure TypeContext where
  descriptor : TypeDescriptor
  key : TypeContextKey
deriving DecidableEq, Repr

/-- The `TypeContext` constructor: its two `assert`s demand a non-null
descriptor whose key equals the key's descriptor component; a run that
trips either assert constructs nothing (`none`). -/
def TypeContext.mk? (key : TypeContextKey)
    (descriptor : Option TypeDescriptor) : Option TypeContext :=
  match descriptor with
  | none => none
  | some d =>
    if d.key = key.descriptor_key then some ⟨d, key⟩ else none

/-- `TableTraits<TypeContext>::create`: an empty pointer for a null
descriptor, otherwise the constructor. -/
def TypeContext.create (key : TypeContextKey)
    (descriptor : Option TypeDescriptor) : Option TypeContext :=
  match descriptor with
  | none => none
  | some d => TypeContext.mk? key (some d)

/-- `SystemTableMap::acquire_or_create` on the type-context map
(victionary_client.h lines 283-315): return the committed entry when the
key is present, otherwise create, store and return the new entry; `none`
when `create` fails. -/
def SystemTableMap.acquire_or_create (keyStr : TypeContextKey → Bytes)
    (m : CommittedMap TypeContext) (ckey : TypeContextKey)
    (descriptor : Option TypeDescriptor) :
    Option (CommittedMap TypeContext × TypeContext) :=
  match mapFind m (keyStr ckey) with
  | some e => some (m, e)
  | none =>
    match TypeContext.create ckey descriptor with
    | none => none
    | some e => some (mapInsert m (keyStr ckey) e, e)

theorem mapFind_mem {E : Type} :
    ∀ (m : CommittedMap E) (k : Bytes) (e : E),
      mapFind m k = some e → (k, e) ∈ m := by
  intro m
  induction m with
  | nil =>
    intro k e h
    cases h
  | cons kv rest ih =>
    intro k e h
    obtain ⟨k1, e1⟩ := kv
    simp only [mapFind] at h
    by_cases hk : k1 = k
    · rw [if_pos hk] at h
      injection h with h2
      subst h2 hk
      exact List.mem_cons_self _ _
    · rw [if_neg hk] at h
      exact List.mem_cons_of_mem _ (ih k e h)

theorem mapInsert_mem {E : Type} :
    ∀ (m : CommittedMap E) (k : Bytes) (e : E) (kv : Bytes × E),
      kv ∈ mapInsert m k e → kv = (k, e) ∨ kv ∈ m := by
  intro m
  induction m with
  | nil =>
    intro k e kv h
    simp only [mapInsert] at h
    rcases List.mem_cons.mp h with h | h
    · exact Or.inl h
    · cases h
  | cons kv1 rest ih =>
    intro k e kv h
    obtain ⟨k1, e1⟩ := kv1
    simp only [mapInsert] at h
    by_cases hlt : bytesLt k k1 = true
    · rw [if_pos hlt] at h
      rcases List.mem_cons.mp h with h | h
      · exact Or.inl h
      · exact Or.inr h
    · rw [if_neg hlt] at h
      by_cases hk : k1 = k
      · rw [if_pos hk] at h
        rcases List.mem_cons.mp h with h | h
        · exact Or.inl h
        · exact Or.inr (List.mem_cons_of_mem _ h)
      · rw [if_neg hk] at h
        rcases List.mem_cons.mp h with h | h
        · exact Or.inr (by rw [h]; exact List.mem_cons_self _ _)
        · rcases ih k e kv h with h2 | h2
          · exact Or.inl h2
          · exact Or.inr (List.mem_cons_of_mem _ h2)

/-- A successfully created context satisfies the descriptor-key tie. -/
theorem create_some_wf {ckey : TypeContextKey} {d : Option TypeDescriptor}
    {c : TypeContext} (h : TypeContext.create ckey d = some c) :
    c.descriptor.key = c.key.descriptor_key ∧ c.key = ckey := by
  cases d with
  | none => cases h
  | some dd =>
    simp only [TypeContext.create, TypeContext.mk?] at h
    by_cases hk : dd.key = ckey.descriptor_key
    · rw [if_pos hk] at h
      injection h with h2
      subst h2
      exact ⟨hk, rfl⟩
    · rw [if_neg hk] at h
      cases h

/-- C10: every constructed `TypeContext` holds a (non-null) descriptor
whose key equals the descriptor-key component of the context's own key;
`create(key, nullptr)` returns an empty pointer instead; and
`acquire_or_create` only ever returns and stores contexts satisfying the
tie, preserving it across the whole committed map. -/
theorem type_context_descriptor_invariant :
    (∀ (key : TypeContextKey) (d : Option TypeDescriptor)
        (c : TypeContext),
        TypeContext.mk? key d = some c →
          d = some c.descriptor
            ∧ c.descriptor.key = c.key.descriptor_key ∧ c.key = key)
    ∧ (∀ key : TypeContextKey, TypeContext.create key none = none)
    ∧ (∀ (keyStr : TypeContextKey → Bytes) (m : CommittedMap TypeContext)
        (ckey : TypeContextKey) (d : Option TypeDescriptor)
        (m' : CommittedMap TypeContext) (e : TypeContext),
        (∀ kv ∈ m, (kv.2).descriptor.key = (kv.2).key.descriptor_key) →
        SystemTableMap.acquire_or_create keyStr m ckey d = some (m', e) →
          e.descriptor.key = e.key.descriptor_key
            ∧ ∀ kv ∈ m',
                (kv.2).descriptor.key = (kv.2).key.descriptor_key) := by
  refine ⟨?_, fun _ => rfl, ?_⟩
  · intro key d c h
    cases d with
    | none => cases h
    | some dd =>
      simp only [TypeContext.mk?] at h
      by_cases hk : dd.key = key.descriptor_key
      · rw [if_pos hk] at h
        injection h with h2
        subst h2
        exact ⟨rfl, hk, rfl⟩
      · rw [if_neg hk] at h
        cases h
  · intro keyStr m ckey d m' e hwf hacq
    unfold SystemTableMap.acquire_or_create at hacq
    rcases hf : mapFind m (keyStr ckey) with _ | e0
    · rw [hf] at hacq
      rcases hc : TypeContext.create ckey d with _ | e1
      · rw [hc] at hacq
        cases hacq
      · rw [hc] at hacq
        have hpair : mapInsert m (keyStr ckey) e1 = m' ∧ e1 = e := by
          simpa using hacq
        obtain ⟨hm', he⟩ := hpair
        subst hm' he
        refine ⟨(create_some_wf hc).1, ?_⟩
        intro kv hkv
        rcases mapInsert_mem m (keyStr ckey) e1 kv hkv with h | h
        · rw [h]
          exact (create_some_wf hc).1
        · exact hwf kv h
    · rw [hf] at hacq
      have hpair : m = m' ∧ e0 = e := by
        simpa using hacq
      obtain ⟨hm', he⟩ := hpair
      subst hm' he
      exact ⟨hwf _ (mapFind_mem m (keyStr ckey) e0 hf), hwf⟩

/-- Witness for `type_context_descriptor_invariant`: creating the context
for a fresh key stores one well-tied entry. -/
theorem type_context_descriptor_invariant_witness :
    ((⟨⟨⟨['v'], ['e'], ['1']⟩⟩, ⟨⟨['v'], ['e'], ['1']⟩, []⟩⟩
        : TypeContext).descriptor.key
      = (⟨⟨⟨['v'], ['e'], ['1']⟩⟩, ⟨⟨['v'], ['e'], ['1']⟩, []⟩⟩
        : TypeContext).key.descriptor_key)
    ∧ ∀ kv ∈ ([([], ⟨⟨⟨['v'], ['e'], ['1']⟩⟩, ⟨⟨['v'], ['e'], ['1']⟩, []⟩⟩)]
        : CommittedMap TypeContext),
      (kv.2).descriptor.key = (kv.2).key.descriptor_key :=
  type_context_descriptor_invariant.2.2 (fun _ => []) []
    ⟨⟨['v'], ['e'], ['1']⟩, []⟩ (some ⟨⟨['v'], ['e'], ['1']⟩⟩)
    [([], ⟨⟨⟨['v'], ['e'], ['1']⟩⟩, ⟨⟨['v'], ['e'], ['1']⟩, []⟩⟩)]
    ⟨⟨⟨['v'], ['e'], ['1']⟩⟩, ⟨⟨['v'], ['e'], ['1']⟩, []⟩⟩
    (by simp) rfl

/-!
### Event order of `Sql_cmd_uninstall_extension::execute`
-/

/-- The observable events of `execute` after the extension tables are
open, in source order. -/
inductive UninstallEvent where
  | lookup_and_mark
  | write_uncommitted
  | unregister_vdfs
  | dlclose_extension
  | commit
  | rollback
deriving DecidableEq, Repr

/-- The event trace of `Sql_cmd_uninstall_extension::execute`
(sql_extension.cc lines 446-480), driven by whether phase 1
(`remove_extension_from_victionary`) fails, whether phase 2
(`write_all_uncommitted_entries`) fails, and whether an extension
descriptor supplied a registration to unload (`to_unregister`).
`rollback`/`commit` stand for `end_transaction(thd, true)` /
`end_transaction(thd, false)`. -/
def uninstallExecuteTrace (phase1_fails phase2_fails to_unregister : Bool) :
    List UninstallEvent :=
  if phase1_fails then
    [UninstallEvent.lookup_and_mark, UninstallEvent.rollback]
  else if phase2_fails then
    [UninstallEvent.lookup_and_mark, UninstallEvent.write_uncommitted,
     UninstallEvent.rollback]
  else if to_unregister then
    [UninstallEvent.lookup_and_mark, UninstallEvent.write_uncommitted,
     UninstallEvent.unregister_vdfs, UninstallEvent.dlclose_extension,
     UninstallEvent.commit]
  else
    [UninstallEvent.lookup_and_mark, UninstallEvent.write_uncommitted,
     UninstallEvent.commit]

/-- C3 (code bug): in the successful uninstall of an extension with a
loaded shared object, the VDF unregistration and the `dlclose` happen
strictly BEFORE the transaction commit, not after it as the spec requires
("*Only after* commit succeeds, unregister the VDFs ... and `dlclose`").
The commit is the trace's last event; both unload events precede it. -/
theorem uninstall_unloads_before_commit :
    (uninstallExecuteTrace false false true).indexOf
        UninstallEvent.unregister_vdfs
      < (uninstallExecuteTrace false false true).indexOf
          UninstallEvent.commit
    ∧ (uninstallExecuteTrace false false true).indexOf
        UninstallEvent.dlclose_extension
      < (uninstallExecuteTrace false false true).indexOf
          UninstallEvent.commit
    ∧ UninstallEvent.commit ∈ uninstallExecuteTrace false false true
    ∧ UninstallEvent.rollback ∉ uninstallExecuteTrace false false true := by
  decide

end VSQL
